import Mathlib

/-!
Verification of the analytical core of the SEBNF LL(1) grammar analyzer.

The development shallowly embeds the Rust source:
* `src/bnf.rs` — BNF grammar data model and the `is_ll1` driver;
* `src/sets.rs` — FIRST/FOLLOW computation (`first_of_sequence`,
  `extract_sets`) and the semantic conflict predicate
  (`check_item_conflict`, `find_set_conflicts`);
* `src/regex_intersect.rs` — the product-DFA breadth-first search
  (`do_regexs_intersect`) and `regex_matches_empty`;
* `src/converter.rs` — the EBNF→BNF desugarer (`convert_item`,
  `sebnf_to_bnf`).

Representation choices, used consistently below:
* Rust `HashSet<SetItem>` values are represented as duplicate-free
  `List SetItem` in insertion order (`hinsert` is insert-if-absent);
  all properties proved about them are membership properties, which is
  the only observable interface the source uses.
* Rust `HashMap<String, _>` and `IndexMap<String, _>` are represented
  as association lists; `IndexMap` iteration order is its insertion
  order, which the association list preserves.
* The external `regex_automata` dense DFA is represented by the
  `CDFA` structure: a byte-transition function, an end-of-input
  transition, match/dead predicates and a start state.  Bytes are
  `Fin 256`.  The guarantees the library provides for dead states are
  hypotheses of the theorems that need them.
* The fixed-point loops of `extract_sets` and the BFS loop of
  `do_regexs_intersect` terminate for reasons outside their own
  structure (monotone growth over a finite lattice, finite product
  state space), so they take an explicit fuel argument; theorems
  quantify over the fuel.
-/

namespace SEBNF

/-! ## Generic list-map helpers (HashMap / IndexMap as association lists) -/

/-- Lookup in an association list: the value of the first pair whose key
equals `k` (Rust `HashMap::get` / `IndexMap::get`). -/
def mapGet {α β : Type} [DecidableEq α] (m : List (α × β)) (k : α) : Option β :=
  (m.find? (fun e => decide (e.1 = k))).map (·.2)

/-- In-place modification of the value at key `k`, a no-op when the key is
absent (Rust `get_mut(k).unwrap()` followed by mutation; the call sites
only use it on keys that are present). -/
def mapModify {α β : Type} [DecidableEq α] (m : List (α × β)) (k : α) (f : β → β) :
    List (α × β) :=
  m.map (fun e => if e.1 = k then (e.1, f e.2) else e)

/-- Keys of an association list, in order. -/
def mapKeys {α β : Type} (m : List (α × β)) : List α := m.map (·.1)

theorem mapGet_nil {α β : Type} [DecidableEq α] (k : α) :
    mapGet ([] : List (α × β)) k = none := rfl

theorem mapGet_cons {α β : Type} [DecidableEq α] (e : α × β) (m : List (α × β)) (k : α) :
    mapGet (e :: m) k = if e.1 = k then some e.2 else mapGet m k := by
  by_cases h : e.1 = k <;> simp [mapGet, List.find?, h]

theorem mapModify_cons {α β : Type} [DecidableEq α] (e : α × β) (m : List (α × β))
    (k : α) (f : β → β) :
    mapModify (e :: m) k f =
      (if e.1 = k then (e.1, f e.2) else e) :: mapModify m k f := rfl

theorem mapGet_modify {α β : Type} [DecidableEq α] (m : List (α × β)) (k : α) (f : β → β)
    (n : α) :
    mapGet (mapModify m k f) n =
      if n = k then (mapGet m n).map f else mapGet m n := by
  induction m with
  | nil => by_cases h : n = k <;> simp [mapModify, mapGet_nil, h]
  | cons e m ih =>
    rw [mapModify_cons]
    by_cases hek : e.1 = k
    · by_cases hnk : n = k
      · have hen : e.1 = n := by rw [hek, hnk]
        rw [if_pos hek, mapGet_cons, mapGet_cons]
        simp [hen, hnk]
      · have hen : ¬ e.1 = n := fun h => hnk (by rw [← h, hek])
        rw [if_pos hek, mapGet_cons, mapGet_cons]
        simp only [hen, if_false, if_neg hnk, ih, if_neg hnk]
    · by_cases hen : e.1 = n
      · have hnk : ¬ n = k := fun h => hek (by rw [hen, h])
        rw [if_neg hek, mapGet_cons, mapGet_cons]
        simp [hen, hnk]
      · rw [if_neg hek, mapGet_cons, mapGet_cons, if_neg hen, if_neg hen, ih]

theorem mapKeys_modify {α β : Type} [DecidableEq α] (m : List (α × β)) (k : α) (f : β → β) :
    mapKeys (mapModify m k f) = mapKeys m := by
  induction m with
  | nil => rfl
  | cons e m ih =>
    by_cases hek : e.1 = k <;> simp [mapModify, mapKeys, hek] at ih ⊢ <;> simpa using ih

/-- `List.foldl` preserves any invariant preserved by each step whose
element comes from the folded list. -/
theorem foldl_preserves {α β : Type} {P : β → Prop} (f : β → α → β) (l : List α)
    (h : ∀ b a, a ∈ l → P b → P (f b a)) (init : β) (hi : P init) :
    P (l.foldl f init) := by
  induction l generalizing init with
  | nil => exact hi
  | cons a l ih =>
    exact ih (fun b x hx hb => h b x (List.mem_cons_of_mem a hx) hb)
      (f init a) (h init a (List.mem_cons_self a l) hi)

/-! ## Data model (`src/bnf.rs`, `src/sets.rs`) -/

/-- `bnf::Item`: a flat BNF grammar symbol. -/
inductive Item : Type where
  | NonTerminal (s : String)
  | Terminal (s : String)
  | Regex (s : String)
deriving DecidableEq, Repr

/-- `bnf::Bnf`: an insertion-ordered mapping from nonterminal name to the
list of alternative productions (the `IndexMap` is an association list). -/
structure Bnf : Type where
  rules : List (String × List (List Item))
deriving DecidableEq, Repr

/-- `sets::SetItem`: the alphabet of FIRST/FOLLOW sets. -/
inductive SetItem : Type where
  | Terminal (s : String)
  | Regex (s : String)
  | Epsilon
  | EndOfInput
deriving DecidableEq, Repr

/-- A Rust `HashSet<SetItem>` as a duplicate-free list: insert-if-absent. -/
def hinsert (s : List SetItem) (x : SetItem) : List SetItem :=
  if x ∈ s then s else s ++ [x]

/-- `HashSet::extend`: insert every element of `l`. -/
def hextend (s : List SetItem) (l : List SetItem) : List SetItem :=
  l.foldl hinsert s

theorem mem_hinsert (s : List SetItem) (x y : SetItem) :
    y ∈ hinsert s x ↔ y ∈ s ∨ y = x := by
  unfold hinsert
  by_cases h : x ∈ s
  · simp only [if_pos h]
    constructor
    · exact Or.inl
    · rintro (hy | rfl) <;> [exact hy; exact h]
  · simp [if_neg h]

theorem mem_hextend (s : List SetItem) (l : List SetItem) (y : SetItem) :
    y ∈ hextend s l ↔ y ∈ s ∨ y ∈ l := by
  induction l generalizing s with
  | nil => simp [hextend]
  | cons a l ih =>
    show y ∈ hextend (hinsert s a) l ↔ _
    rw [ih, mem_hinsert]
    constructor
    · rintro ((h | rfl) | h)
      · exact Or.inl h
      · exact Or.inr (List.mem_cons_self _ _)
      · exact Or.inr (List.mem_cons_of_mem _ h)
    · rintro (h | h)
      · exact Or.inl (Or.inl h)
      · rcases List.mem_cons.mp h with rfl | h
        · exact Or.inl (Or.inr rfl)
        · exact Or.inr h

/-- A FIRST or FOLLOW table: nonterminal name → set of `SetItem`
(`HashMap<String, HashSet<SetItem>>`). -/
def SetTable : Type := List (String × List SetItem)

instance : DecidableEq SetTable := by unfold SetTable; infer_instance

/-- `sets::Sets`: the result of `extract_sets`. -/
structure Sets : Type where
  first : SetTable
  follow : SetTable

/-! ## `first_of_sequence` (`src/sets.rs:178`) -/

/-- The FIRST set stored for nonterminal `nt`, the empty set when the
key is absent (`first_sets.get(nt).cloned().unwrap_or_default()`). -/
def ntFirsts (m : SetTable) (nt : String) : List SetItem :=
  (mapGet m nt).getD []

/-- `sets::first_of_sequence`: returns `(FIRST(sequence) without ε,
sequence_is_nullable)`.  The Rust `for` loop with `break` becomes
structural recursion; the accumulation of `firsts` across loop
iterations becomes a union (`hextend`) with the recursive result. -/
def first_of_sequence : List Item → SetTable → List SetItem × Bool
  | [], _ => ([], true)
  | Item.Terminal s :: _, _ => ([SetItem.Terminal s], false)
  | Item.Regex s :: _, _ => ([SetItem.Regex s], false)
  | Item.NonTerminal nt :: rest, m =>
      let nt_firsts := ntFirsts m nt
      let contributed := nt_firsts.filter (fun f => decide (f ≠ SetItem.Epsilon))
      if SetItem.Epsilon ∈ nt_firsts then
        let r := first_of_sequence rest m
        (hextend contributed r.1, r.2)
      else
        (contributed, false)

theorem epsilon_not_mem_first_of_sequence (seq : List Item) (m : SetTable) :
    SetItem.Epsilon ∉ (first_of_sequence seq m).1 := by
  induction seq with
  | nil => simp [first_of_sequence]
  | cons it rest ih =>
    cases it with
    | Terminal s => simp [first_of_sequence]
    | Regex s => simp [first_of_sequence]
    | NonTerminal nt =>
      by_cases h : SetItem.Epsilon ∈ ntFirsts m nt
      · simp only [first_of_sequence, if_pos h]
        intro hmem
        rcases (mem_hextend _ _ _).mp hmem with hc | hr
        · simp at hc
        · exact ih hr
      · simp only [first_of_sequence, if_neg h]
        intro hmem
        simp at hmem

/-! ## `extract_sets` (`src/sets.rs:339`) -/

/-- Both tables are initialized with an empty set per rule key. -/
def initTable (g : Bnf) : SetTable := g.rules.map (fun r => (r.1, []))

/-- The update applied to `FIRST(lhs)` for one production: union in the
production's firsts, and ε when the production is nullable
(`src/sets.rs:357-363`). -/
def firstUpdate (firsts : List SetItem) (nullable : Bool) (cur : List SetItem) :
    List SetItem :=
  let cur1 := hextend cur firsts
  if nullable then hinsert cur1 SetItem.Epsilon else cur1

/-- One pass of the FIRST fixed-point loop over all rules and productions,
threading the partially updated table exactly as the Rust loop mutates it
in place (`src/sets.rs:350-365`). -/
def firstPass (g : Bnf) (m : SetTable) : SetTable :=
  g.rules.foldl (fun m rule =>
    rule.2.foldl (fun m production =>
      let r := first_of_sequence production m
      mapModify m rule.1 (firstUpdate r.1 r.2)) m) m

/-- The `while changed` FIRST loop, with fuel standing in for the
termination argument (monotone growth over a finite lattice). -/
def firstLoop (g : Bnf) : Nat → SetTable → SetTable
  | 0, m => m
  | fuel + 1, m =>
    let m' := firstPass g m
    if m' = m then m else firstLoop g fuel m'

/-- Processing of position `i` of one production inside the FOLLOW loop
(`src/sets.rs:384-406`): skip non-nonterminals, skip nonterminals that
are not keys of the FOLLOW table (the `let ... else continue`), union in
`FIRST(β) \ ε`, and when β is nullable also union in `FOLLOW(lhs)`
(read from the already-updated table, as the Rust borrows do). -/
def followProcessPos (first_sets : SetTable) (lhs : String) (production : List Item)
    (fol : SetTable) (i : Nat) : SetTable :=
  match production[i]? with
  | some (Item.NonTerminal current_nt) =>
    match mapGet fol current_nt with
    | none => fol
    | some _ =>
      let beta := production.drop (i + 1)
      let r := first_of_sequence beta first_sets
      let f1 := mapModify fol current_nt (fun cur => hextend cur r.1)
      if r.2 then
        let lhs_follows := (mapGet f1 lhs).getD []
        mapModify f1 current_nt (fun cur => hextend cur lhs_follows)
      else
        f1
  | _ => fol

/-- One pass of the FOLLOW fixed-point loop (`src/sets.rs:379-409`). -/
def followPass (g : Bnf) (first_sets : SetTable) (fol : SetTable) : SetTable :=
  g.rules.foldl (fun fol rule =>
    rule.2.foldl (fun fol production =>
      (List.range production.length).foldl
        (followProcessPos first_sets rule.1 production) fol) fol) fol

/-- The `while changed` FOLLOW loop, fueled as `firstLoop`. -/
def followLoop (g : Bnf) (first_sets : SetTable) : Nat → SetTable → SetTable
  | 0, fol => fol
  | fuel + 1, fol =>
    let fol' := followPass g first_sets fol
    if fol' = fol then fol else followLoop g first_sets fuel fol'

/-- `sets::extract_sets`: FIRST by fixed point, then `$` into
`FOLLOW(start)` where `start` is the first rule in insertion order, then
FOLLOW by fixed point. -/
def extract_sets (g : Bnf) (fuel : Nat) : Sets :=
  let first := firstLoop g fuel (initTable g)
  let follow0 := initTable g
  let follow1 :=
    match g.rules.head? with
    | some r => mapModify follow0 r.1 (fun cur => hinsert cur SetItem.EndOfInput)
    | none => follow0
  { first := first, follow := followLoop g first fuel follow1 }

/-! ## Nullability: "derives the empty sequence" -/

/-- A sequence of BNF items derives the empty token sequence: every item
is a nonterminal that has some production deriving the empty sequence.
Terminals and regex terminals each always produce one token, so they can
never be erased. -/
inductive NullableSeq (g : Bnf) : List Item → Prop where
  | nil : NullableSeq g []
  | cons {nt : String} {rest : List Item} {alts : List (List Item)} {prod : List Item} :
      (nt, alts) ∈ g.rules → prod ∈ alts → NullableSeq g prod →
      NullableSeq g rest → NullableSeq g (Item.NonTerminal nt :: rest)

/-- A nonterminal derives the empty sequence. -/
def NullableNT (g : Bnf) (N : String) : Prop :=
  ∃ alts prod, (N, alts) ∈ g.rules ∧ prod ∈ alts ∧ NullableSeq g prod

/-- Soundness invariant on a FIRST table: every ε entry is backed by a
real empty derivation. -/
def EpsSound (g : Bnf) (m : SetTable) : Prop :=
  ∀ N, SetItem.Epsilon ∈ ntFirsts m N → NullableNT g N

theorem nullable_of_first_of_sequence (g : Bnf) (m : SetTable) (hm : EpsSound g m) :
    ∀ seq : List Item, (first_of_sequence seq m).2 = true → NullableSeq g seq := by
  intro seq
  induction seq with
  | nil => intro _; exact NullableSeq.nil
  | cons it rest ih =>
    cases it with
    | Terminal s => intro h; simp [first_of_sequence] at h
    | Regex s => intro h; simp [first_of_sequence] at h
    | NonTerminal nt =>
      intro h
      by_cases he : SetItem.Epsilon ∈ ntFirsts m nt
      · simp only [first_of_sequence, if_pos he] at h
        obtain ⟨alts, prod, hmem, hp, hnp⟩ := hm nt he
        exact NullableSeq.cons hmem hp hnp (ih h)
      · simp [first_of_sequence, if_neg he] at h

theorem epsSound_firstUpdate (g : Bnf) (m : SetTable) (hm : EpsSound g m)
    {lhs : String} {alts : List (List Item)} {production : List Item}
    (hrule : (lhs, alts) ∈ g.rules) (hprod : production ∈ alts) :
    EpsSound g (mapModify m lhs
      (firstUpdate (first_of_sequence production m).1 (first_of_sequence production m).2)) := by
  intro N hN
  unfold ntFirsts at hN
  rw [mapGet_modify] at hN
  by_cases hNl : N = lhs
  · rw [if_pos hNl] at hN
    cases hcur : mapGet m N with
    | none => rw [hcur] at hN; simp at hN
    | some cur =>
      rw [hcur] at hN
      simp only [Option.map_some', Option.getD_some] at hN
      unfold firstUpdate at hN
      have hold : SetItem.Epsilon ∈ cur → NullableNT g N := by
        intro hc
        exact hm N (by unfold ntFirsts; rw [hcur]; exact hc)
      by_cases hnb : (first_of_sequence production m).2 = true
      · rw [if_pos hnb] at hN
        rcases (mem_hinsert _ _ _).mp hN with h1 | _
        · rcases (mem_hextend _ _ _).mp h1 with hc | hf
          · exact hold hc
          · exact absurd hf (epsilon_not_mem_first_of_sequence production m)
        · subst hNl
          exact ⟨alts, production, hrule, hprod,
            nullable_of_first_of_sequence g m hm production hnb⟩
      · rw [if_neg (by simpa using hnb)] at hN
        rcases (mem_hextend _ _ _).mp hN with hc | hf
        · exact hold hc
        · exact absurd hf (epsilon_not_mem_first_of_sequence production m)
  · rw [if_neg hNl] at hN
    exact hm N hN

theorem epsSound_firstPass (g : Bnf) (m : SetTable) (hm : EpsSound g m) :
    EpsSound g (firstPass g m) := by
  unfold firstPass
  refine foldl_preserves _ _ ?_ m hm
  intro b rule hrule hb
  refine foldl_preserves _ _ ?_ b hb
  intro b' production hprod hb'
  exact epsSound_firstUpdate g b' hb' hrule hprod

theorem epsSound_firstLoop (g : Bnf) (fuel : Nat) (m : SetTable) (hm : EpsSound g m) :
    EpsSound g (firstLoop g fuel m) := by
  induction fuel generalizing m with
  | zero => exact hm
  | succ fuel ih =>
    unfold firstLoop
    by_cases h : firstPass g m = m
    · rw [if_pos h]; exact hm
    · rw [if_neg h]; exact ih _ (epsSound_firstPass g m hm)

theorem epsSound_initTable (g : Bnf) : EpsSound g (initTable g) := by
  intro N hN
  exfalso
  unfold ntFirsts at hN
  cases hget : mapGet (initTable g) N with
  | none => rw [hget] at hN; simp at hN
  | some s =>
    have hs : s = [] := by
      unfold mapGet initTable at hget
      rcases hfind : (g.rules.map (fun r => (r.1, ([] : List SetItem)))).find?
          (fun e => decide (e.1 = N)) with _ | e
      · rw [hfind] at hget; simp at hget
      · rw [hfind] at hget
        have he := List.find?_some hfind
        have hmem := List.mem_of_find?_eq_some hfind
        simp only [List.mem_map] at hmem
        obtain ⟨r, _, hr⟩ := hmem
        simp only [Option.map_some', Option.some_inj] at hget
        rw [← hget, ← hr]
    rw [hget] at hN
    rw [hs] at hN
    simp at hN

/-- Claim C4: if the FIRST table computed by `extract_sets` contains ε in
`FIRST(N)` for a nonterminal `N`, then `N` derives the empty sequence in
that grammar. -/
theorem first_epsilon_sound (g : Bnf) (fuel : Nat) (N : String) (s : List SetItem)
    (hget : mapGet (extract_sets g fuel).first N = some s)
    (hmem : SetItem.Epsilon ∈ s) : NullableNT g N := by
  have hfirst : (extract_sets g fuel).first = firstLoop g fuel (initTable g) := rfl
  refine epsSound_firstLoop g fuel (initTable g) (epsSound_initTable g) N ?_
  unfold ntFirsts
  rw [← hfirst, hget]
  exact hmem

/-- The one-rule grammar `S := ε`. -/
def gEps : Bnf := { rules := [("S", [[]])] }

/-- Witness for C4 at the grammar `S := ε`: the computed table maps `S`
to `{ε}` and the theorem yields the empty derivation for `S`. -/
theorem first_epsilon_sound_witness :
    mapGet (extract_sets gEps 1).first "S" = some [SetItem.Epsilon] ∧ NullableNT gEps "S" :=
  ⟨by decide, first_epsilon_sound gEps 1 "S" [SetItem.Epsilon] (by decide) (by decide)⟩

/-- Claim C5: `first_of_sequence` scans left to right; a `Terminal` or
`Regex` head contributes itself and stops with `nullable = false`; a
`NonTerminal` head contributes `FIRST(X) \ {ε}` and the scan continues
exactly when `ε ∈ FIRST(X)`, the nullability being that of the rest; the
empty sequence is nullable; the returned set never contains ε. -/
theorem first_of_sequence_spec (m : SetTable) :
    (first_of_sequence [] m = ([], true))
    ∧ (∀ s rest, first_of_sequence (Item.Terminal s :: rest) m
        = ([SetItem.Terminal s], false))
    ∧ (∀ s rest, first_of_sequence (Item.Regex s :: rest) m
        = ([SetItem.Regex s], false))
    ∧ (∀ nt rest, SetItem.Epsilon ∉ ntFirsts m nt →
        first_of_sequence (Item.NonTerminal nt :: rest) m
          = ((ntFirsts m nt).filter (fun f => decide (f ≠ SetItem.Epsilon)), false))
    ∧ (∀ nt rest, SetItem.Epsilon ∈ ntFirsts m nt →
        (∀ x, x ∈ (first_of_sequence (Item.NonTerminal nt :: rest) m).1 ↔
            ((x ∈ ntFirsts m nt ∧ x ≠ SetItem.Epsilon)
              ∨ x ∈ (first_of_sequence rest m).1))
        ∧ (first_of_sequence (Item.NonTerminal nt :: rest) m).2
            = (first_of_sequence rest m).2)
    ∧ (∀ seq, SetItem.Epsilon ∉ (first_of_sequence seq m).1) := by
  refine ⟨rfl, fun s rest => rfl, fun s rest => rfl, ?_, ?_,
    fun seq => epsilon_not_mem_first_of_sequence seq m⟩
  · intro nt rest h
    simp only [first_of_sequence, if_neg h]
  · intro nt rest h
    constructor
    · intro x
      simp only [first_of_sequence, if_pos h]
      rw [mem_hextend]
      rw [List.mem_filter]
      constructor
      · rintro (⟨h1, h2⟩ | h1)
        · exact Or.inl ⟨h1, by simpa using h2⟩
        · exact Or.inr h1
      · rintro (⟨h1, h2⟩ | h1)
        · exact Or.inl ⟨h1, by simpa using h2⟩
        · exact Or.inr h1
    · simp only [first_of_sequence, if_pos h]

/-- A FIRST table used by the C5 witness. -/
def wm5 : SetTable :=
  [("X", [SetItem.Epsilon, SetItem.Terminal "a"]), ("Y", [SetItem.Terminal "b"])]

/-- Witness for C5: concrete instances of the nonterminal cases, with the
ε-membership side conditions discharged by evaluation. -/
theorem first_of_sequence_spec_witness :
    first_of_sequence [Item.NonTerminal "Y"] wm5
      = ((ntFirsts wm5 "Y").filter (fun f => decide (f ≠ SetItem.Epsilon)), false)
    ∧ (SetItem.Terminal "a"
        ∈ (first_of_sequence [Item.NonTerminal "X", Item.NonTerminal "Y"] wm5).1 ↔
        ((SetItem.Terminal "a" ∈ ntFirsts wm5 "X"
            ∧ SetItem.Terminal "a" ≠ SetItem.Epsilon)
          ∨ SetItem.Terminal "a" ∈ (first_of_sequence [Item.NonTerminal "Y"] wm5).1)) :=
  ⟨(first_of_sequence_spec wm5).2.2.2.1 "Y" [] (by decide),
   ((first_of_sequence_spec wm5).2.2.2.2.1 "X" [Item.NonTerminal "Y"] (by decide)).1
     (SetItem.Terminal "a")⟩

/-- Claim C10: `first_of_sequence` and the FOLLOW iteration are total on
dangling nonterminal references (the fixed-point loops are rendered with
explicit fuel, every map lookup is an `Option` match, and no case is
missing): a nonterminal that is not a key of the FIRST table contributes
the empty set and stops the scan as non-nullable, and a position holding
a nonterminal that is not a key of the FOLLOW table is skipped by the
FOLLOW iteration, leaving the table unchanged. -/
theorem sets_total_on_dangling :
    (∀ (m : SetTable) (nt : String) (rest : List Item), mapGet m nt = none →
        first_of_sequence (Item.NonTerminal nt :: rest) m = ([], false))
    ∧ (∀ (first_sets : SetTable) (lhs : String) (production : List Item)
        (fol : SetTable) (i : Nat) (nt : String),
        production[i]? = some (Item.NonTerminal nt) →
        mapGet fol nt = none →
        followProcessPos first_sets lhs production fol i = fol) := by
  constructor
  · intro m nt rest h
    have hnf : ntFirsts m nt = [] := by unfold ntFirsts; rw [h]; rfl
    simp [first_of_sequence, hnf]
  · intro first_sets lhs production fol i nt hi hget
    simp [followProcessPos, hi, hget]

/-- Witness for C10: a dangling nonterminal in a FIRST scan and in a
FOLLOW position, both with the lookups evaluating to `none`. -/
theorem sets_total_on_dangling_witness :
    first_of_sequence [Item.NonTerminal "B"] [] = ([], false)
    ∧ followProcessPos [] "A" [Item.NonTerminal "B"] [("A", [])] 0 = [("A", [])] :=
  ⟨sets_total_on_dangling.1 [] "B" [] (by decide),
   sets_total_on_dangling.2 [] "A" [Item.NonTerminal "B"] [("A", [])] 0 "B"
     (by decide) (by decide)⟩

/-! ## The semantic conflict predicate (`src/sets.rs:221-337`) -/

/-- `regex_intersect::Error`: which side failed to compile.  The
`BuildError` payload is external and carries no information the core
inspects, so it is dropped. -/
inductive RegexErr : Type where
  | InvalidRegexA
  | InvalidRegexB
deriving DecidableEq, Repr

/-- The interface of `do_regexs_intersect` as consumed by the sets
engine: two pattern strings to either an optional witness or an error. -/
def Oracle : Type := String → String → Except RegexErr (Option String)

/-- `sets::Ll1Error`. -/
inductive Ll1Error : Type where
  | InvalidRegex (pattern : String) (source : RegexErr)
deriving DecidableEq, Repr

/-- `sets::SetItemConflict`. -/
structure SetItemConflict : Type where
  item1 : SetItem
  item2 : SetItem
  witness : Option String
deriving DecidableEq, Repr

/-- Rust `str::strip_prefix(c)` on a character list. -/
def stripPrefixCh (c : Char) : List Char → Option (List Char)
  | [] => none
  | x :: xs => if x = c then some xs else none

/-- Rust `str::strip_suffix(c)` on a character list. -/
def stripSuffixCh (c : Char) (l : List Char) : Option (List Char) :=
  (stripPrefixCh c l.reverse).map List.reverse

/-- `sets::strip_regex_delimiters`.  Note the source's second
`unwrap_or(s)` falls back to the original string, not to the
prefix-stripped one; the translation keeps that behavior. -/
def strip_regex_delimiters (s : String) : String :=
  match stripSuffixCh '/' ((stripPrefixCh '/' s.data).getD s.data) with
  | some r => String.mk r
  | none => s

/-- `sets::strip_terminal_quotes`, same fallback shape as above. -/
def strip_terminal_quotes (s : String) : String :=
  match stripSuffixCh '"' ((stripPrefixCh '"' s.data).getD s.data) with
  | some r => String.mk r
  | none => s

/-- The shared body of the Rust `(Regex(r), Terminal(t)) |
(Terminal(t), Regex(r))` match arm (`src/sets.rs:305-321`). -/
def regexTerminalArm (oracle : Oracle) (escape : String → String)
    (item1 item2 : SetItem) (r t : String) : Except Ll1Error (Option SetItemConflict) :=
  let pattern := strip_regex_delimiters r
  let terminal := strip_terminal_quotes t
  let escaped_terminal := escape terminal
  match oracle pattern escaped_terminal with
  | Except.ok (some w) =>
      Except.ok (some ⟨item1, item2, some w⟩)
  | Except.ok none => Except.ok none
  | Except.error e => Except.error (Ll1Error.InvalidRegex r e)

/-- `sets::check_item_conflict`, parameterized by the regex oracle and by
`regex_syntax::escape` (both external to the sets engine). -/
def check_item_conflict (oracle : Oracle) (escape : String → String)
    (item1 item2 : SetItem) : Except Ll1Error (Option SetItemConflict) :=
  match item1, item2 with
  | SetItem.Terminal t1, SetItem.Terminal t2 =>
      let s1 := strip_terminal_quotes t1
      let s2 := strip_terminal_quotes t2
      if s1 = s2 then
        Except.ok (some ⟨SetItem.Terminal t1, SetItem.Terminal t2, some s1⟩)
      else
        Except.ok none
  | SetItem.Regex r1, SetItem.Regex r2 =>
      let p1 := strip_regex_delimiters r1
      let p2 := strip_regex_delimiters r2
      (match oracle p1 p2 with
      | Except.ok (some w) =>
          Except.ok (some ⟨SetItem.Regex r1, SetItem.Regex r2, some w⟩)
      | Except.ok none => Except.ok none
      | Except.error e => Except.error (Ll1Error.InvalidRegex (r1 ++ " or " ++ r2) e))
  | SetItem.Regex r, SetItem.Terminal t =>
      regexTerminalArm oracle escape (SetItem.Regex r) (SetItem.Terminal t) r t
  | SetItem.Terminal t, SetItem.Regex r =>
      regexTerminalArm oracle escape (SetItem.Terminal t) (SetItem.Regex r) r t
  | SetItem.Epsilon, SetItem.Epsilon =>
      Except.ok (some ⟨SetItem.Epsilon, SetItem.Epsilon, none⟩)
  | SetItem.EndOfInput, SetItem.EndOfInput =>
      Except.ok (some ⟨SetItem.EndOfInput, SetItem.EndOfInput, none⟩)
  | _, _ => Except.ok none

/-- `sets::find_set_conflicts`: the predicate on the Cartesian product,
collecting hits and propagating the first error. -/
def find_set_conflicts (oracle : Oracle) (escape : String → String)
    (set1 set2 : List SetItem) : Except Ll1Error (List SetItemConflict) :=
  set1.foldlM (fun acc i1 =>
    set2.foldlM (fun acc i2 => do
      match ← check_item_conflict oracle escape i1 i2 with
      | some c => pure (acc ++ [c])
      | none => pure acc) acc) []

/-- Claim C3: `check_item_conflict` implements the semantic conflict
table: two terminals conflict iff their quote-stripped texts are equal,
with the stripped text as witness; two regexes conflict iff the oracle
finds a common string, which becomes the witness; a regex and a terminal
(in either order) consult the oracle on the regex and the escaped
stripped literal; ε conflicts with ε and `$` with `$`, both without a
witness; every other cross-kind pair never conflicts. -/
theorem check_item_conflict_table (oracle : Oracle) (escape : String → String) :
    (∀ t1 t2, strip_terminal_quotes t1 = strip_terminal_quotes t2 →
      check_item_conflict oracle escape (SetItem.Terminal t1) (SetItem.Terminal t2)
        = Except.ok (some ⟨SetItem.Terminal t1, SetItem.Terminal t2,
            some (strip_terminal_quotes t1)⟩))
    ∧ (∀ t1 t2, strip_terminal_quotes t1 ≠ strip_terminal_quotes t2 →
      check_item_conflict oracle escape (SetItem.Terminal t1) (SetItem.Terminal t2)
        = Except.ok none)
    ∧ (∀ r1 r2, check_item_conflict oracle escape (SetItem.Regex r1) (SetItem.Regex r2)
        = match oracle (strip_regex_delimiters r1) (strip_regex_delimiters r2) with
          | Except.ok (some w) =>
              Except.ok (some ⟨SetItem.Regex r1, SetItem.Regex r2, some w⟩)
          | Except.ok none => Except.ok none
          | Except.error e => Except.error (Ll1Error.InvalidRegex (r1 ++ " or " ++ r2) e))
    ∧ (∀ r t, check_item_conflict oracle escape (SetItem.Regex r) (SetItem.Terminal t)
        = match oracle (strip_regex_delimiters r) (escape (strip_terminal_quotes t)) with
          | Except.ok (some w) =>
              Except.ok (some ⟨SetItem.Regex r, SetItem.Terminal t, some w⟩)
          | Except.ok none => Except.ok none
          | Except.error e => Except.error (Ll1Error.InvalidRegex r e))
    ∧ (∀ r t, check_item_conflict oracle escape (SetItem.Terminal t) (SetItem.Regex r)
        = match oracle (strip_regex_delimiters r) (escape (strip_terminal_quotes t)) with
          | Except.ok (some w) =>
              Except.ok (some ⟨SetItem.Terminal t, SetItem.Regex r, some w⟩)
          | Except.ok none => Except.ok none
          | Except.error e => Except.error (Ll1Error.InvalidRegex r e))
    ∧ (check_item_conflict oracle escape SetItem.Epsilon SetItem.Epsilon
        = Except.ok (some ⟨SetItem.Epsilon, SetItem.Epsilon, none⟩))
    ∧ (check_item_conflict oracle escape SetItem.EndOfInput SetItem.EndOfInput
        = Except.ok (some ⟨SetItem.EndOfInput, SetItem.EndOfInput, none⟩))
    ∧ (∀ t, check_item_conflict oracle escape (SetItem.Terminal t) SetItem.Epsilon
          = Except.ok none
        ∧ check_item_conflict oracle escape SetItem.Epsilon (SetItem.Terminal t)
          = Except.ok none
        ∧ check_item_conflict oracle escape (SetItem.Terminal t) SetItem.EndOfInput
          = Except.ok none
        ∧ check_item_conflict oracle escape SetItem.EndOfInput (SetItem.Terminal t)
          = Except.ok none)
    ∧ (∀ r, check_item_conflict oracle escape (SetItem.Regex r) SetItem.Epsilon
          = Except.ok none
        ∧ check_item_conflict oracle escape SetItem.Epsilon (SetItem.Regex r)
          = Except.ok none
        ∧ check_item_conflict oracle escape (SetItem.Regex r) SetItem.EndOfInput
          = Except.ok none
        ∧ check_item_conflict oracle escape SetItem.EndOfInput (SetItem.Regex r)
          = Except.ok none)
    ∧ (check_item_conflict oracle escape SetItem.Epsilon SetItem.EndOfInput
        = Except.ok none)
    ∧ (check_item_conflict oracle escape SetItem.EndOfInput SetItem.Epsilon
        = Except.ok none) := by
  refine ⟨?_, ?_, fun r1 r2 => rfl, fun r t => rfl, fun r t => rfl, rfl, rfl,
    fun t => ⟨rfl, rfl, rfl, rfl⟩, fun r => ⟨rfl, rfl, rfl, rfl⟩, rfl, rfl⟩
  · intro t1 t2 h
    simp only [check_item_conflict, if_pos h]
  · intro t1 t2 h
    simp only [check_item_conflict, if_neg h]

/-- A concrete oracle for the C3 witness: intersect equal patterns. -/
def wOracle : Oracle := fun p q => if p = q then Except.ok (some p) else Except.ok none

/-- Witness for C3: the terminal/terminal cases at concrete quoted
literals, both hypotheses discharged by evaluation. -/
theorem check_item_conflict_table_witness :
    check_item_conflict wOracle id (SetItem.Terminal "\"x\"") (SetItem.Terminal "\"x\"")
      = Except.ok (some ⟨SetItem.Terminal "\"x\"", SetItem.Terminal "\"x\"",
          some (strip_terminal_quotes "\"x\"")⟩)
    ∧ check_item_conflict wOracle id (SetItem.Terminal "\"x\"") (SetItem.Terminal "\"y\"")
      = Except.ok none :=
  ⟨(check_item_conflict_table wOracle id).1 "\"x\"" "\"x\"" (by decide),
   (check_item_conflict_table wOracle id).2.1 "\"x\"" "\"y\"" (by decide)⟩

/-! ## The LL(1) driver (`src/bnf.rs:27-91`) -/

/-- `sets::Ll1ConflictKind`. -/
inductive Ll1ConflictKind : Type where
  | FirstFirst (production1 production2 : List Item)
  | FirstFollow (nullable_production other_production : List Item)
deriving DecidableEq, Repr

/-- `sets::Ll1Conflict`. -/
structure Ll1Conflict : Type where
  non_terminal : String
  kind : Ll1ConflictKind
  conflicts : List SetItemConflict
deriving DecidableEq, Repr

/-- `sets::Ll1Result`. -/
structure Ll1Result : Type where
  conflicts : List Ll1Conflict
deriving DecidableEq, Repr

/-- `Ll1Result::is_ll1`. -/
def Ll1Result.isLl1 (r : Ll1Result) : Bool := r.conflicts.isEmpty

/-- `Bnf::is_ll1`: compute the sets, then for each nonterminal with at
least two alternatives run the FIRST/FIRST check on every unordered pair
and the FIRST/FOLLOW check for every nullable alternative against every
other alternative, collecting conflicts and propagating oracle errors. -/
def is_ll1 (oracle : Oracle) (escape : String → String) (g : Bnf) (fuel : Nat) :
    Except Ll1Error Ll1Result := do
  let sets := extract_sets g fuel
  let conflicts ← g.rules.foldlM (fun (conflicts : List Ll1Conflict) rule => do
    let nt := rule.1
    let productions := rule.2
    if productions.length ≤ 1 then
      pure conflicts
    else do
      let prod_firsts := productions.map (fun prod => first_of_sequence prod sets.first)
      let conflicts ← (List.range productions.length).foldlM (fun conflicts i =>
        (List.range productions.length).foldlM (fun conflicts j => do
          if i < j then
            let item_conflicts ← find_set_conflicts oracle escape
              (prod_firsts.getD i ([], true)).1 (prod_firsts.getD j ([], true)).1
            if item_conflicts.isEmpty then
              pure conflicts
            else
              pure (conflicts ++ [⟨nt,
                Ll1ConflictKind.FirstFirst
                  (productions.getD i []) (productions.getD j []),
                item_conflicts⟩])
          else
            pure conflicts) conflicts) conflicts
      let follow_set := (mapGet sets.follow nt).getD []
      (List.range productions.length).foldlM (fun conflicts i =>
        if (prod_firsts.getD i ([], true)).2 then
          (List.range productions.length).foldlM (fun conflicts j => do
            if i ≠ j then
              let item_conflicts ← find_set_conflicts oracle escape
                (prod_firsts.getD j ([], true)).1 follow_set
              if item_conflicts.isEmpty then
                pure conflicts
              else
                pure (conflicts ++ [⟨nt,
                  Ll1ConflictKind.FirstFollow
                    (productions.getD i []) (productions.getD j []),
                  item_conflicts⟩])
            else
              pure conflicts) conflicts
        else
          pure conflicts) conflicts) []
  pure { conflicts := conflicts }

/-- The grammar `S := ε | ε`: one nonterminal with two empty
alternatives. -/
def gC9 : Bnf := { rules := [("S", [[], []])] }

/-- Claim C9: `first_of_sequence` never returns ε in an alternative's
FIRST set, so no ε/ε conflict can be reported between two nullable
alternatives; in particular the grammar `S := ε | ε` produces no
conflict at all and is reported LL(1), for every oracle, escape
function and fuel. -/
theorem is_ll1_epsilon_alternatives :
    (∀ (m : SetTable) (seq : List Item),
        decide (SetItem.Epsilon ∈ (first_of_sequence seq m).1) = false)
    ∧ (∀ (oracle : Oracle) (escape : String → String) (fuel : Nat),
        is_ll1 oracle escape gC9 fuel = Except.ok { conflicts := [] })
    ∧ (∀ (oracle : Oracle) (escape : String → String) (fuel : Nat),
        (is_ll1 oracle escape gC9 fuel).map Ll1Result.isLl1 = Except.ok true) := by
  refine ⟨fun m seq => decide_eq_false (epsilon_not_mem_first_of_sequence seq m),
    fun oracle escape fuel => rfl, fun oracle escape fuel => ?_⟩
  rfl

/-! ## The regex intersection oracle (`src/regex_intersect.rs`)

The external `regex_automata` dense DFA is abstracted as `CDFA`: the
operations the source calls on it (`next_state`, `next_eoi_state`,
`is_match_state`, `is_dead_state`, the anchored forward start state).
States are `Nat`, bytes are `Fin 256`.  Witness strings are byte lists;
the final `String::from_utf8_lossy` presentation step is external. -/

structure CDFA : Type where
  next : Nat → Fin 256 → Nat
  nextEoi : Nat → Nat
  isMatch : Nat → Bool
  isDead : Nat → Bool
  start : Nat

/-- Run the DFA from state `s` over the byte list. -/
def runFrom (d : CDFA) (s : Nat) (bs : List (Fin 256)) : Nat := bs.foldl d.next s

/-- Full anchored match from state `s`: run the bytes, take the
end-of-input transition, test for a match state. -/
def acceptsFrom (d : CDFA) (s : Nat) (bs : List (Fin 256)) : Bool :=
  d.isMatch (d.nextEoi (runFrom d s bs))

/-- Full anchored match of the whole DFA. -/
def accepts (d : CDFA) (bs : List (Fin 256)) : Bool := acceptsFrom d d.start bs

theorem runFrom_append (d : CDFA) (s : Nat) (xs ys : List (Fin 256)) :
    runFrom d s (xs ++ ys) = runFrom d (runFrom d s xs) ys := by
  simp [runFrom, List.foldl_append]

theorem acceptsFrom_append (d : CDFA) (s : Nat) (xs ys : List (Fin 256)) :
    acceptsFrom d s (xs ++ ys) = acceptsFrom d (runFrom d s xs) ys := by
  simp [acceptsFrom, runFrom_append]

/-- `regex_intersect::regex_matches_empty`, with the external
`DFA::new` compilation step abstracted as an `Option CDFA`-valued
function: a failed compilation yields `false`, otherwise the empty
anchored input is run (start state, end-of-input transition, match
test). -/
def regex_matches_empty (compile : String → Option CDFA) (pattern : String) : Bool :=
  match compile pattern with
  | none => false
  | some dfa => dfa.isMatch (dfa.nextEoi dfa.start)

/-- Claim C8: `regex_matches_empty` is true iff the pattern compiles and
the compiled DFA accepts the empty string; a pattern that fails to
compile yields `false` rather than an error. -/
theorem regex_matches_empty_spec (compile : String → Option CDFA) (pattern : String) :
    (regex_matches_empty compile pattern = true ↔
      ∃ d, compile pattern = some d ∧ accepts d [] = true)
    ∧ (compile pattern = none → regex_matches_empty compile pattern = false) := by
  constructor
  · cases hc : compile pattern with
    | none => simp [regex_matches_empty, hc]
    | some d =>
      simp only [regex_matches_empty, hc, accepts, acceptsFrom, runFrom, List.foldl_nil]
      constructor
      · intro h; exact ⟨d, rfl, h⟩
      · rintro ⟨d', hd', h⟩
        cases hd'
        exact h
  · intro hc
    simp [regex_matches_empty, hc]

/-- A DFA accepting exactly the empty string, for the C8 witness. -/
def dEmpty : CDFA :=
  { next := fun _ _ => 1, nextEoi := fun s => s, isMatch := fun s => s == 0,
    isDead := fun s => s == 1, start := 0 }

/-- A compilation function for the C8 witness: only the empty pattern
compiles. -/
def wCompile : String → Option CDFA := fun p => if p = "" then some dEmpty else none

/-- Witness for C8: a compiling pattern whose DFA accepts ε maps to
`true`, a non-compiling pattern maps to `false`. -/
theorem regex_matches_empty_spec_witness :
    regex_matches_empty wCompile "" = true
    ∧ regex_matches_empty wCompile "[x" = false :=
  ⟨(regex_matches_empty_spec wCompile "").1.mpr ⟨dEmpty, rfl, rfl⟩,
   (regex_matches_empty_spec wCompile "[x").2 rfl⟩

/-! ## The product-automaton BFS (`src/regex_intersect.rs:57-103`)

The Rust parent map serves as visited set and path-reconstruction aid;
here each visited pair is mapped directly to its byte path from the
start (the reconstruction is fused into the map), which preserves the
returned value.  The `VecDeque` is a list popped at the head and pushed
at the tail.  The search loop takes fuel; termination of the Rust loop
comes from the finiteness of the product state space. -/

/-- One visited/queued record: a product state pair and the byte path
that first reached it. -/
abbrev Entry : Type := (Nat × Nat) × List (Fin 256)

/-- Transition of the product automaton on one byte. -/
def prodNext (dA dB : CDFA) (p : Nat × Nat) (b : Fin 256) : Nat × Nat :=
  (dA.next p.1 b, dB.next p.2 b)

/-- A product pair is skipped when either component is dead. -/
def prodDead (dA dB : CDFA) (p : Nat × Nat) : Bool :=
  dA.isDead p.1 || dB.isDead p.2

/-- Joint acceptance test performed at each popped pair: both
end-of-input successors are match states. -/
def prodAcc (dA dB : CDFA) (p : Nat × Nat) : Bool :=
  dA.isMatch (dA.nextEoi p.1) && dB.isMatch (dB.nextEoi p.2)

/-- The body of the `for byte in 0u8..=255` loop for one byte: compute
the successor pair, skip it when dead or already visited, otherwise
record it in the visited map and collect it for enqueueing. -/
def expandStep (dA dB : CDFA) (p : Nat × Nat) (w : List (Fin 256))
    (acc : List Entry × List Entry) (b : Fin 256) : List Entry × List Entry :=
  let q := prodNext dA dB p b
  if prodDead dA dB q then acc
  else if (mapGet acc.1 q).isSome then acc
  else (acc.1 ++ [(q, w ++ [b])], acc.2 ++ [(q, w ++ [b])])

/-- The whole byte loop of one BFS iteration: returns the grown visited
map and the list of newly discovered entries, in byte order. -/
def expand (dA dB : CDFA) (p : Nat × Nat) (w : List (Fin 256)) (visited : List Entry) :
    List Entry × List Entry :=
  (List.finRange 256).foldl (expandStep dA dB p w) (visited, [])

/-- The BFS loop of `do_regexs_intersect`: pop the front pair, return
its path if both automata accept at end of input there, otherwise
expand its byte successors and continue. -/
def bfs (dA dB : CDFA) : Nat → List Entry → List Entry → Option (Option (List (Fin 256)))
  | 0, _, _ => none
  | _ + 1, _, [] => some none
  | fuel + 1, visited, e :: queue =>
    if prodAcc dA dB e.1 then some (some e.2)
    else
      let r := expand dA dB e.1 e.2 visited
      bfs dA dB fuel r.1 (queue ++ r.2)

/-- `regex_intersect::do_regexs_intersect` after both patterns compiled:
seed the visited map and the queue with the pair of anchored start
states and run the BFS.  `some (some w)` models `Ok(Some(w))`,
`some none` models `Ok(None)`, and `none` means the fuel ran out before
the loop finished. -/
def do_regexs_intersect (dA dB : CDFA) (fuel : Nat) : Option (Option (List (Fin 256))) :=
  bfs dA dB fuel [((dA.start, dB.start), [])] [((dA.start, dB.start), [])]

/-! ### Map and key facts used by the BFS proofs -/

theorem mem_mapKeys {α β : Type} (m : List (α × β)) (k : α) :
    k ∈ mapKeys m ↔ ∃ e, e ∈ m ∧ e.1 = k := by
  constructor
  · intro h
    rcases List.mem_map.mp h with ⟨e, he, hk⟩
    exact ⟨e, he, hk⟩
  · rintro ⟨e, he, hk⟩
    exact List.mem_map.mpr ⟨e, he, hk⟩

theorem mapKeys_append {α β : Type} (m1 m2 : List (α × β)) :
    mapKeys (m1 ++ m2) = mapKeys m1 ++ mapKeys m2 := by
  simp [mapKeys]

theorem mapGet_isSome_iff {α β : Type} [DecidableEq α] (m : List (α × β)) (k : α) :
    (mapGet m k).isSome = true ↔ k ∈ mapKeys m := by
  induction m with
  | nil => simp [mapGet_nil, mapKeys]
  | cons e m ih =>
    rw [mapGet_cons]
    by_cases h : e.1 = k
    · simp [h, mapKeys]
    · simp only [if_neg h, ih, mapKeys, List.map_cons, List.mem_cons]
      constructor
      · exact Or.inr
      · rintro (hk | hk)
        · exact absurd hk.symm h
        · exact hk

theorem mapGet_eq_none_iff {α β : Type} [DecidableEq α] (m : List (α × β)) (k : α) :
    mapGet m k = none ↔ k ∉ mapKeys m := by
  rw [← mapGet_isSome_iff]
  cases mapGet m k <;> simp

theorem entry_unique {α β : Type} {V : List (α × β)} (h : (mapKeys V).Nodup)
    {e f : α × β} (he : e ∈ V) (hf : f ∈ V) (hk : e.1 = f.1) : e = f :=
  List.inj_on_of_nodup_map h he hf hk

/-! ### Paths of the product automaton -/

/-- The product pair reached from the start pair along a byte path. -/
def reach (dA dB : CDFA) (π : List (Fin 256)) : Nat × Nat :=
  π.foldl (prodNext dA dB) (dA.start, dB.start)

theorem foldl_prodNext_pair (dA dB : CDFA) (π : List (Fin 256)) :
    ∀ sa sb, π.foldl (prodNext dA dB) (sa, sb) = (runFrom dA sa π, runFrom dB sb π) := by
  induction π with
  | nil => intro sa sb; rfl
  | cons b π ih =>
    intro sa sb
    show π.foldl (prodNext dA dB) (dA.next sa b, dB.next sb b) = _
    rw [ih]
    rfl

theorem reach_eq (dA dB : CDFA) (π : List (Fin 256)) :
    reach dA dB π = (runFrom dA dA.start π, runFrom dB dB.start π) :=
  foldl_prodNext_pair dA dB π _ _

theorem reach_snoc (dA dB : CDFA) (ρ : List (Fin 256)) (b : Fin 256) :
    reach dA dB (ρ ++ [b]) = prodNext dA dB (reach dA dB ρ) b := by
  simp [reach, List.foldl_append]

/-- A byte path is live when no nonempty prefix of it lands on a pair
with a dead component: exactly the paths the BFS pruning does not cut. -/
def live (dA dB : CDFA) (π : List (Fin 256)) : Prop :=
  ∀ n, 0 < n → n ≤ π.length → prodDead dA dB (reach dA dB (π.take n)) = false

theorem live_nil (dA dB : CDFA) : live dA dB [] := by
  intro n h1 h2
  simp at h2
  omega

theorem live_take {dA dB : CDFA} {π : List (Fin 256)} (h : live dA dB π) (n : Nat) :
    live dA dB (π.take n) := by
  intro m hm1 hm2
  rw [List.length_take] at hm2
  rw [List.take_take, min_eq_left (le_trans hm2 (min_le_left _ _))]
  exact h m hm1 (le_trans hm2 (min_le_right _ _))

theorem live_of_snoc {dA dB : CDFA} {ρ : List (Fin 256)} {b : Fin 256}
    (h : live dA dB (ρ ++ [b])) : live dA dB ρ := by
  intro n h1 h2
  have := h n h1 (by simp; omega)
  rwa [List.take_append_of_le_length h2] at this

theorem live_snoc {dA dB : CDFA} {ρ : List (Fin 256)} {b : Fin 256}
    (hρ : live dA dB ρ) (hb : prodDead dA dB (reach dA dB (ρ ++ [b])) = false) :
    live dA dB (ρ ++ [b]) := by
  intro n h1 h2
  simp only [List.length_append, List.length_cons, List.length_nil] at h2
  by_cases hn : n ≤ ρ.length
  · rw [List.take_append_of_le_length hn]
    exact hρ n h1 hn
  · have : n = ρ.length + 1 := by omega
    rw [this, show ρ.length + 1 = (ρ ++ [b]).length by simp, List.take_length]
    exact hb

theorem live_last {dA dB : CDFA} {ρ : List (Fin 256)} {b : Fin 256}
    (h : live dA dB (ρ ++ [b])) : prodDead dA dB (reach dA dB (ρ ++ [b])) = false := by
  have := h (ρ.length + 1) (by omega) (by simp)
  rwa [show ρ.length + 1 = (ρ ++ [b]).length by simp, List.take_length] at this

/-- Any byte path accepted by both automata is live, given the library
guarantee that no input leads from a dead state to acceptance. -/
theorem accepted_live (dA dB : CDFA)
    (hdA : ∀ s, dA.isDead s = true → ∀ bs, acceptsFrom dA s bs = false)
    (hdB : ∀ s, dB.isDead s = true → ∀ bs, acceptsFrom dB s bs = false)
    (π : List (Fin 256)) (ha : accepts dA π = true) (hb : accepts dB π = true) :
    live dA dB π := by
  intro n h1 h2
  cases hdead : prodDead dA dB (reach dA dB (π.take n)) with
  | false => rfl
  | true =>
    exfalso
    rw [reach_eq] at hdead
    unfold prodDead at hdead
    simp only [Bool.or_eq_true] at hdead
    rcases hdead with hA | hB
    · have hfail := hdA _ hA (π.drop n)
      rw [← acceptsFrom_append, List.take_append_drop] at hfail
      rw [accepts] at ha
      rw [ha] at hfail
      simp at hfail
    · have hfail := hdB _ hB (π.drop n)
      rw [← acceptsFrom_append, List.take_append_drop] at hfail
      rw [accepts] at hb
      rw [hb] at hfail
      simp at hfail

/-- The joint acceptance test at the endpoint of a path is the
conjunction of the two anchored full matches. -/
theorem prodAcc_reach (dA dB : CDFA) (π : List (Fin 256)) :
    prodAcc dA dB (reach dA dB π) = (accepts dA π && accepts dB π) := by
  rw [reach_eq]
  rfl

/-! ### Characterization of `expand` -/

theorem expandFold_spec (dA dB : CDFA) (p : Nat × Nat) (w : List (Fin 256))
    (visited : List Entry) (bytes : List (Fin 256)) :
    ∀ acc : List Entry × List Entry,
      acc.1 = visited ++ acc.2 →
      (∀ f ∈ acc.2, ∃ b : Fin 256, f = (prodNext dA dB p b, w ++ [b])
        ∧ prodDead dA dB f.1 = false ∧ mapGet visited f.1 = none) →
      ((bytes.foldl (expandStep dA dB p w) acc).1
          = visited ++ (bytes.foldl (expandStep dA dB p w) acc).2
        ∧ (∀ f ∈ (bytes.foldl (expandStep dA dB p w) acc).2,
            ∃ b : Fin 256, f = (prodNext dA dB p b, w ++ [b])
              ∧ prodDead dA dB f.1 = false ∧ mapGet visited f.1 = none)) := by
  induction bytes with
  | nil => intro acc h1 h2; exact ⟨h1, h2⟩
  | cons b rest ih =>
    intro acc h1 h2
    show (rest.foldl _ (expandStep dA dB p w acc b)).1 = _ ∧ _
    refine ih (expandStep dA dB p w acc b) ?_ ?_
    · unfold expandStep
      by_cases hd : prodDead dA dB (prodNext dA dB p b) = true
      · simp only [if_pos hd]; exact h1
      · rw [if_neg hd]
        by_cases hs : (mapGet acc.1 (prodNext dA dB p b)).isSome = true
        · simp only [if_pos hs]; exact h1
        · simp only [if_neg hs]
          show acc.1 ++ _ = visited ++ (acc.2 ++ _)
          rw [h1, List.append_assoc]
    · unfold expandStep
      by_cases hd : prodDead dA dB (prodNext dA dB p b) = true
      · simp only [if_pos hd]; exact h2
      · rw [if_neg hd]
        by_cases hs : (mapGet acc.1 (prodNext dA dB p b)).isSome = true
        · simp only [if_pos hs]; exact h2
        · simp only [if_neg hs]
          intro f hf
          rcases List.mem_append.mp hf with hf | hf
          · exact h2 f hf
          · rcases List.mem_singleton.mp hf with rfl
            have hnone : mapGet acc.1 (prodNext dA dB p b) = none := by
              cases hm : mapGet acc.1 (prodNext dA dB p b)
              · rfl
              · exact absurd (by rw [hm]; rfl) hs
            refine ⟨b, rfl, by simpa using hd, ?_⟩
            show mapGet visited (prodNext dA dB p b) = none
            rw [h1] at hnone
            rw [mapGet_eq_none_iff] at hnone ⊢
            intro hmem
            exact hnone (by rw [mapKeys_append]; exact List.mem_append_left _ hmem)

theorem expandFold_mono (dA dB : CDFA) (p : Nat × Nat) (w : List (Fin 256))
    (bytes : List (Fin 256)) :
    ∀ (acc : List Entry × List Entry) (k : Nat × Nat), k ∈ mapKeys acc.1 →
      k ∈ mapKeys ((bytes.foldl (expandStep dA dB p w) acc).1) := by
  induction bytes with
  | nil => intro acc k hk; exact hk
  | cons b rest ih =>
    intro acc k hk
    refine ih _ k ?_
    simp only [expandStep]
    by_cases hd : prodDead dA dB (prodNext dA dB p b) = true
    · rw [if_pos hd]; exact hk
    · rw [if_neg hd]
      by_cases hs : (mapGet acc.1 (prodNext dA dB p b)).isSome = true
      · rw [if_pos hs]; exact hk
      · rw [if_neg hs]
        show k ∈ mapKeys (acc.1 ++ _)
        rw [mapKeys_append]
        exact List.mem_append_left _ hk

theorem expandFold_nodup (dA dB : CDFA) (p : Nat × Nat) (w : List (Fin 256))
    (bytes : List (Fin 256)) :
    ∀ acc : List Entry × List Entry, (mapKeys acc.1).Nodup →
      (mapKeys ((bytes.foldl (expandStep dA dB p w) acc).1)).Nodup := by
  induction bytes with
  | nil => intro acc h; exact h
  | cons b rest ih =>
    intro acc h
    refine ih _ ?_
    simp only [expandStep]
    by_cases hd : prodDead dA dB (prodNext dA dB p b) = true
    · rw [if_pos hd]; exact h
    · rw [if_neg hd]
      by_cases hs : (mapGet acc.1 (prodNext dA dB p b)).isSome = true
      · rw [if_pos hs]; exact h
      · rw [if_neg hs]
        have hnone : mapGet acc.1 (prodNext dA dB p b) = none := by
          cases hm : mapGet acc.1 (prodNext dA dB p b)
          · rfl
          · exact absurd (by rw [hm]; rfl) hs
        show (mapKeys (acc.1 ++ [(prodNext dA dB p b, w ++ [b])])).Nodup
        rw [mapKeys_append]
        rw [List.nodup_append]
        refine ⟨h, List.nodup_singleton _, ?_⟩
        intro k hk hk2
        have : k = prodNext dA dB p b := by simpa [mapKeys] using hk2
        subst this
        exact absurd hk ((mapGet_eq_none_iff _ _).mp hnone)

theorem expandFold_covers (dA dB : CDFA) (p : Nat × Nat) (w : List (Fin 256))
    (bytes : List (Fin 256)) :
    ∀ (acc : List Entry × List Entry) (b : Fin 256), b ∈ bytes →
      prodDead dA dB (prodNext dA dB p b) = false →
      prodNext dA dB p b ∈ mapKeys ((bytes.foldl (expandStep dA dB p w) acc).1) := by
  induction bytes with
  | nil => intro acc b hb; exact absurd hb (List.not_mem_nil b)
  | cons c rest ih =>
    intro acc b hb hd
    rcases List.mem_cons.mp hb with rfl | hb
    · refine expandFold_mono dA dB p w rest _ _ ?_
      simp only [expandStep]
      rw [if_neg (by rw [hd]; exact Bool.false_ne_true)]
      by_cases hs : (mapGet acc.1 (prodNext dA dB p b)).isSome = true
      · rw [if_pos hs]
        exact (mapGet_isSome_iff _ _).mp hs
      · rw [if_neg hs]
        show prodNext dA dB p b ∈ mapKeys (acc.1 ++ [(prodNext dA dB p b, w ++ [b])])
        rw [mapKeys_append]
        exact List.mem_append_right _ (by simp [mapKeys])
    · exact ih _ b hb hd

theorem expand_spec (dA dB : CDFA) (p : Nat × Nat) (w : List (Fin 256))
    (visited : List Entry) :
    (expand dA dB p w visited).1 = visited ++ (expand dA dB p w visited).2
    ∧ ∀ f ∈ (expand dA dB p w visited).2, ∃ b : Fin 256,
        f = (prodNext dA dB p b, w ++ [b]) ∧ prodDead dA dB f.1 = false
        ∧ mapGet visited f.1 = none :=
  expandFold_spec dA dB p w visited (List.finRange 256) (visited, [])
    (List.append_nil visited).symm (fun f hf => absurd hf (List.not_mem_nil f))

theorem expand_nodup (dA dB : CDFA) (p : Nat × Nat) (w : List (Fin 256))
    (visited : List Entry) (h : (mapKeys visited).Nodup) :
    (mapKeys (expand dA dB p w visited).1).Nodup :=
  expandFold_nodup dA dB p w (List.finRange 256) (visited, []) h

theorem expand_covers (dA dB : CDFA) (p : Nat × Nat) (w : List (Fin 256))
    (visited : List Entry) (b : Fin 256)
    (hd : prodDead dA dB (prodNext dA dB p b) = false) :
    prodNext dA dB p b ∈ mapKeys (expand dA dB p w visited).1 :=
  expandFold_covers dA dB p w (List.finRange 256) (visited, []) b
    (List.mem_finRange b) hd

/-! ### The BFS invariant -/

/-- The invariant of the BFS loop relating the visited map `V` and the
queue `Q`.  Entries carry the byte path that first reached their pair;
"popped" pairs are those in `V` whose key is no longer in `Q`. -/
structure BfsInv (dA dB : CDFA) (V Q : List Entry) : Prop where
  runs : ∀ e ∈ V, reach dA dB e.2 = e.1 ∧ live dA dB e.2
  nodupV : (mapKeys V).Nodup
  subQ : ∀ e ∈ Q, e ∈ V
  startMem : (dA.start, dB.start) ∈ mapKeys V
  poppedNacc : ∀ e ∈ V, e.1 ∉ mapKeys Q → prodAcc dA dB e.1 = false
  poppedClosed : ∀ e ∈ V, e.1 ∉ mapKeys Q → ∀ b : Fin 256,
    prodDead dA dB (prodNext dA dB e.1 b) = false → prodNext dA dB e.1 b ∈ mapKeys V
  sortedQ : List.Pairwise (fun e f : Entry => e.2.length ≤ f.2.length) Q
  bndQ : ∀ e₀, Q.head? = some e₀ → ∀ e ∈ Q, e.2.length ≤ e₀.2.length + 1
  minV : ∀ e ∈ V, ∀ π, live dA dB π → reach dA dB π = e.1 → e.2.length ≤ π.length

/-- Along any live path, the BFS frontier is complete: the endpoint is
visited, or some proper prefix stops at a queued pair. -/
theorem walk (dA dB : CDFA) (V Q : List Entry)
    (hstart : (dA.start, dB.start) ∈ mapKeys V)
    (hclosed : ∀ e ∈ V, e.1 ∉ mapKeys Q → ∀ b : Fin 256,
      prodDead dA dB (prodNext dA dB e.1 b) = false → prodNext dA dB e.1 b ∈ mapKeys V) :
    ∀ π, live dA dB π →
      reach dA dB π ∈ mapKeys V
      ∨ ∃ n, n < π.length ∧ reach dA dB (π.take n) ∈ mapKeys Q := by
  intro π
  induction π using List.reverseRecOn with
  | nil => intro _; exact Or.inl hstart
  | append_singleton ρ b ih =>
    intro hlive
    rcases ih (live_of_snoc hlive) with hV | ⟨n, hn, hQ⟩
    · by_cases hQm : reach dA dB ρ ∈ mapKeys Q
      · refine Or.inr ⟨ρ.length, by simp, ?_⟩
        rwa [List.take_append_of_le_length (le_refl _), List.take_length]
      · rcases (mem_mapKeys _ _).mp hV with ⟨e, heV, hek⟩
        have hdead : prodDead dA dB (prodNext dA dB e.1 b) = false := by
          rw [hek]
          rw [← reach_snoc]
          exact live_last hlive
        have hcl := hclosed e heV (by rwa [hek]) b hdead
        refine Or.inl ?_
        rw [reach_snoc, ← hek]
        exact hcl
    · refine Or.inr ⟨n, by simp; omega, ?_⟩
      rwa [List.take_append_of_le_length (le_of_lt hn)]

theorem pairwise_head_le {e : Entry} {rest : List Entry}
    (h : List.Pairwise (fun e f : Entry => e.2.length ≤ f.2.length) (e :: rest)) :
    ∀ g ∈ e :: rest, e.2.length ≤ g.2.length := by
  intro g hg
  rcases List.mem_cons.mp hg with rfl | hg
  · exact le_refl _
  · exact (List.pairwise_cons.mp h).1 g hg

/-- When the front of the queue is an accepting pair, its path is no
longer than any live path whose endpoint is an accepting pair. -/
theorem front_shortest (dA dB : CDFA) {V : List Entry} {e : Entry} {rest : List Entry}
    (inv : BfsInv dA dB V (e :: rest)) :
    ∀ π, live dA dB π → prodAcc dA dB (reach dA dB π) = true →
      e.2.length ≤ π.length := by
  intro π hlive hacc
  by_contra hlt
  push_neg at hlt
  rcases walk dA dB V (e :: rest) inv.startMem inv.poppedClosed π hlive with hV | ⟨n, hn, hQ⟩
  · rcases (mem_mapKeys _ _).mp hV with ⟨f, hfV, hfk⟩
    have hflen : f.2.length ≤ π.length := inv.minV f hfV π hlive hfk.symm
    by_cases hfQ : f.1 ∈ mapKeys (e :: rest)
    · rcases (mem_mapKeys _ _).mp hfQ with ⟨g, hgQ, hgk⟩
      have hgV := inv.subQ g hgQ
      have hgf : g = f := entry_unique inv.nodupV hgV hfV hgk
      have hge := pairwise_head_le inv.sortedQ g hgQ
      rw [hgf] at hge
      omega
    · have hnacc := inv.poppedNacc f hfV hfQ
      rw [hfk] at hnacc
      rw [hacc] at hnacc
      exact Bool.noConfusion hnacc
  · rcases (mem_mapKeys _ _).mp hQ with ⟨g, hgQ, hgk⟩
    have hgV := inv.subQ g hgQ
    have hglen : g.2.length ≤ n := by
      have := inv.minV g hgV (π.take n) (live_take hlive n) hgk.symm
      rwa [List.length_take, min_eq_left (le_of_lt hn)] at this
    have hge := pairwise_head_le inv.sortedQ g hgQ
    omega

theorem mapKeys_cons {α β : Type} (e : α × β) (m : List (α × β)) :
    mapKeys (e :: m) = e.1 :: mapKeys m := rfl

theorem head?_mem {α : Type} {l : List α} {a : α} (h : l.head? = some a) : a ∈ l := by
  cases l with
  | nil => exact absurd h (by simp)
  | cons x xs =>
    have : x = a := by simpa using h
    rw [← this]
    exact List.mem_cons_self x xs

/-- One non-accepting BFS iteration preserves the invariant. -/
theorem BfsInv.step (dA dB : CDFA) {V : List Entry} {e : Entry} {rest : List Entry}
    (inv : BfsInv dA dB V (e :: rest)) (hnacc : prodAcc dA dB e.1 = false) :
    BfsInv dA dB (expand dA dB e.1 e.2 V).1
      (rest ++ (expand dA dB e.1 e.2 V).2) := by
  obtain ⟨hXeq, hshape⟩ := expand_spec dA dB e.1 e.2 V
  have hXnodup := expand_nodup dA dB e.1 e.2 V inv.nodupV
  have hXcov := expand_covers dA dB e.1 e.2 V
  have heV : e ∈ V := inv.subQ e (List.mem_cons_self e rest)
  obtain ⟨hreach_e, hlive_e⟩ := inv.runs e heV
  have hlen_new : ∀ f ∈ (expand dA dB e.1 e.2 V).2, f.2.length = e.2.length + 1 := by
    intro f hf
    obtain ⟨b, rfl, _, _⟩ := hshape f hf
    simp
  have hkeys_le : ∀ k, k ∈ mapKeys V → k ∈ mapKeys (expand dA dB e.1 e.2 V).1 := by
    intro k hk
    rw [hXeq, mapKeys_append]
    exact List.mem_append_left _ hk
  have hmemV' : ∀ f : Entry, f ∈ (expand dA dB e.1 e.2 V).1 ↔
      f ∈ V ∨ f ∈ (expand dA dB e.1 e.2 V).2 := by
    intro f
    rw [hXeq]
    exact List.mem_append
  have hkeysQ' : ∀ k, k ∈ mapKeys (rest ++ (expand dA dB e.1 e.2 V).2) ↔
      k ∈ mapKeys rest ∨ k ∈ mapKeys (expand dA dB e.1 e.2 V).2 := by
    intro k
    rw [mapKeys_append]
    exact List.mem_append
  constructor
  case runs =>
    intro f hf
    rcases (hmemV' f).mp hf with hfV | hfn
    · exact inv.runs f hfV
    · obtain ⟨b, rfl, hdead, _⟩ := hshape f hfn
      constructor
      · rw [reach_snoc, hreach_e]
      · refine live_snoc hlive_e ?_
        rw [reach_snoc, hreach_e]
        exact hdead
  case nodupV => exact hXnodup
  case subQ =>
    intro f hf
    rcases List.mem_append.mp hf with hfr | hfn
    · exact (hmemV' f).mpr (Or.inl (inv.subQ f (List.mem_cons_of_mem e hfr)))
    · exact (hmemV' f).mpr (Or.inr hfn)
  case startMem => exact hkeys_le _ inv.startMem
  case poppedNacc =>
    intro f hf hnot
    rcases (hmemV' f).mp hf with hfV | hfn
    · by_cases hfQ : f.1 ∈ mapKeys (e :: rest)
      · have hfr : f.1 ∉ mapKeys rest := fun hc => hnot ((hkeysQ' f.1).mpr (Or.inl hc))
        have hfe : f.1 = e.1 := by
          rcases List.mem_cons.mp (by rwa [mapKeys_cons] at hfQ) with h | h
          · exact h
          · exact absurd h hfr
        rw [hfe]
        exact hnacc
      · exact inv.poppedNacc f hfV hfQ
    · exact absurd ((hkeysQ' f.1).mpr (Or.inr ((mem_mapKeys _ _).mpr ⟨f, hfn, rfl⟩))) hnot
  case poppedClosed =>
    intro f hf hnot b hbd
    rcases (hmemV' f).mp hf with hfV | hfn
    · by_cases hfQ : f.1 ∈ mapKeys (e :: rest)
      · have hfr : f.1 ∉ mapKeys rest := fun hc => hnot ((hkeysQ' f.1).mpr (Or.inl hc))
        have hfe : f.1 = e.1 := by
          rcases List.mem_cons.mp (by rwa [mapKeys_cons] at hfQ) with h | h
          · exact h
          · exact absurd h hfr
        rw [hfe] at hbd ⊢
        exact hXcov b hbd
      · exact hkeys_le _ (inv.poppedClosed f hfV hfQ b hbd)
    · exact absurd ((hkeysQ' f.1).mpr (Or.inr ((mem_mapKeys _ _).mpr ⟨f, hfn, rfl⟩))) hnot
  case sortedQ =>
    rw [List.pairwise_append]
    refine ⟨(List.pairwise_cons.mp inv.sortedQ).2, ?_, ?_⟩
    · refine List.pairwise_of_forall_mem_list ?_
      intro a ha b hb
      rw [hlen_new a ha, hlen_new b hb]
    · intro a ha b hb
      rw [hlen_new b hb]
      have := inv.bndQ e rfl a (List.mem_cons_of_mem e ha)
      omega
  case bndQ =>
    intro e₀ h0 f hf
    cases hr : rest with
    | nil =>
      subst hr
      rw [List.nil_append] at h0 hf
      have he₀ := hlen_new e₀ (head?_mem h0)
      have hfl := hlen_new f hf
      omega
    | cons f1 rest' =>
      subst hr
      have he₀ : e₀ = f1 := by have := h0; simp at this; exact this.symm
      subst he₀
      have hef1 : e.2.length ≤ e₀.2.length :=
        pairwise_head_le inv.sortedQ e₀
          (List.mem_cons_of_mem e (List.mem_cons_self e₀ rest'))
      rcases List.mem_append.mp hf with hfr | hfn
      · have := inv.bndQ e rfl f (List.mem_cons_of_mem e hfr)
        omega
      · have := hlen_new f hfn
        omega
  case minV =>
    intro f hf π hliveπ hreachπ
    rcases (hmemV' f).mp hf with hfV | hfn
    · exact inv.minV f hfV π hliveπ hreachπ
    · obtain ⟨b, hfeq, hdead, hvnone⟩ := hshape f hfn
      by_contra hcon
      push_neg at hcon
      have hplen : π.length ≤ e.2.length := by
        have := hlen_new f hfn
        omega
      rcases walk dA dB V (e :: rest) inv.startMem inv.poppedClosed π hliveπ
        with hV | ⟨n, hn, hQ⟩
      · rw [hreachπ] at hV
        exact absurd hV ((mapGet_eq_none_iff _ _).mp hvnone)
      · rcases (mem_mapKeys _ _).mp hQ with ⟨g, hgQ, hgk⟩
        have hgV := inv.subQ g hgQ
        have hglen : g.2.length ≤ n := by
          have := inv.minV g hgV (π.take n) (live_take hliveπ n) hgk.symm
          rwa [List.length_take, min_eq_left (le_of_lt hn)] at this
        have hge := pairwise_head_le inv.sortedQ g hgQ
        omega

/-- Under the invariant, when the BFS returns a witness path, it is no
longer than any live path ending on a jointly accepting pair. -/
theorem bfs_min_aux (dA dB : CDFA) :
    ∀ (fuel : Nat) (V Q : List Entry), BfsInv dA dB V Q →
      ∀ w, bfs dA dB fuel V Q = some (some w) →
        ∀ π, live dA dB π → prodAcc dA dB (reach dA dB π) = true →
          w.length ≤ π.length := by
  intro fuel
  induction fuel with
  | zero =>
    intro V Q _ w h
    simp [bfs] at h
  | succ fuel ih =>
    intro V Q inv w h π hlive hacc
    cases Q with
    | nil => simp [bfs] at h
    | cons e rest =>
      by_cases he : prodAcc dA dB e.1 = true
      · have hw : e.2 = w := by simpa [bfs, he] using h
        rw [← hw]
        exact front_shortest dA dB inv π hlive hacc
      · have hstep : bfs dA dB fuel (expand dA dB e.1 e.2 V).1
            (rest ++ (expand dA dB e.1 e.2 V).2) = some (some w) := by
          simpa [bfs, he] using h
        exact ih _ _ (inv.step dA dB (by simpa using he)) w hstep π hlive hacc

/-- When the BFS returns a witness path, its endpoint pair jointly
accepts; needs only that each queued path runs to its recorded pair. -/
theorem bfs_sound_aux (dA dB : CDFA) :
    ∀ (fuel : Nat) (V Q : List Entry),
      (∀ e ∈ Q, reach dA dB e.2 = e.1) →
      ∀ w, bfs dA dB fuel V Q = some (some w) →
        prodAcc dA dB (reach dA dB w) = true := by
  intro fuel
  induction fuel with
  | zero =>
    intro V Q _ w h
    simp [bfs] at h
  | succ fuel ih =>
    intro V Q hQ w h
    cases Q with
    | nil => simp [bfs] at h
    | cons e rest =>
      by_cases he : prodAcc dA dB e.1 = true
      · have hw : e.2 = w := by simpa [bfs, he] using h
        rw [← hw, hQ e (List.mem_cons_self e rest)]
        exact he
      · have hstep : bfs dA dB fuel (expand dA dB e.1 e.2 V).1
            (rest ++ (expand dA dB e.1 e.2 V).2) = some (some w) := by
          simpa [bfs, he] using h
        refine ih _ _ ?_ w hstep
        intro f hf
        rcases List.mem_append.mp hf with hfr | hfn
        · exact hQ f (List.mem_cons_of_mem e hfr)
        · obtain ⟨b, rfl, _, _⟩ := (expand_spec dA dB e.1 e.2 V).2 f hfn
          rw [reach_snoc, hQ e (List.mem_cons_self e rest)]

/-- The invariant holds on the initial visited map and queue. -/
theorem init_inv (dA dB : CDFA) :
    BfsInv dA dB [((dA.start, dB.start), [])] [((dA.start, dB.start), [])] := by
  constructor
  case runs =>
    intro e he
    rcases List.mem_singleton.mp he with rfl
    exact ⟨rfl, live_nil dA dB⟩
  case nodupV => simp [mapKeys]
  case subQ => exact fun e he => he
  case startMem => simp [mapKeys]
  case poppedNacc =>
    intro e he hq
    rcases List.mem_singleton.mp he with rfl
    exact absurd (by simp [mapKeys]) hq
  case poppedClosed =>
    intro e he hq
    rcases List.mem_singleton.mp he with rfl
    exact absurd (by simp [mapKeys]) hq
  case sortedQ => simp
  case bndQ =>
    intro e₀ h0 f hf
    rcases List.mem_singleton.mp (head?_mem h0) with rfl
    rcases List.mem_singleton.mp hf with rfl
    simp
  case minV =>
    intro e he π _ _
    rcases List.mem_singleton.mp he with rfl
    simp

/-- Claim C2: whenever `do_regexs_intersect` returns `Ok(Some(w))`, the
witness `w` is fully matched, anchored, by both automata. -/
theorem bfs_witness_matches_both (dA dB : CDFA) (fuel : Nat) (w : List (Fin 256))
    (h : do_regexs_intersect dA dB fuel = some (some w)) :
    accepts dA w = true ∧ accepts dB w = true := by
  have hsound := bfs_sound_aux dA dB fuel
    [((dA.start, dB.start), [])] [((dA.start, dB.start), [])]
    (by
      intro e he
      rcases List.mem_singleton.mp he with rfl
      rfl) w h
  rw [prodAcc_reach] at hsound
  simp only [Bool.and_eq_true] at hsound
  exact hsound

/-- Claim C1: whenever `do_regexs_intersect` returns `Ok(Some(w))`, no
byte string strictly shorter than `w` is matched by both automata under
anchored full-string semantics — BFS over the product DFA finds a
shortest common string by byte count.  The two hypotheses on dead
states are the `regex_automata` contract the pruning relies on: from a
dead state no input leads to acceptance. -/
theorem bfs_returns_shortest (dA dB : CDFA) (fuel : Nat) (w π : List (Fin 256))
    (hdA : ∀ s, dA.isDead s = true → ∀ bs, acceptsFrom dA s bs = false)
    (hdB : ∀ s, dB.isDead s = true → ∀ bs, acceptsFrom dB s bs = false)
    (h : do_regexs_intersect dA dB fuel = some (some w))
    (ha : accepts dA π = true) (hb : accepts dB π = true) :
    w.length ≤ π.length := by
  have hlive := accepted_live dA dB hdA hdB π ha hb
  have hacc : prodAcc dA dB (reach dA dB π) = true := by
    rw [prodAcc_reach, ha, hb]
    rfl
  exact bfs_min_aux dA dB fuel _ _ (init_inv dA dB) w h π hlive hacc

/-- A concrete DFA for the C1/C2 witnesses: state 0 is the start, byte
`a` (97) leads to 1, byte `b` (98) leads to the accepting state 3,
`aa` leads to the accepting state 2, state 4 is dead; the language is
`{"aa", "b"}`. -/
def dEx : CDFA :=
  { next := fun s b =>
      if s = 0 ∧ b.val = 97 then 1
      else if s = 0 ∧ b.val = 98 then 3
      else if s = 1 ∧ b.val = 97 then 2
      else 4,
    nextEoi := fun s => s,
    isMatch := fun s => s == 2 || s == 3,
    isDead := fun s => s == 4,
    start := 0 }

theorem dEx_dead : ∀ s, dEx.isDead s = true → ∀ bs, acceptsFrom dEx s bs = false := by
  intro s hs bs
  have hs4 : s = 4 := by simpa [dEx] using hs
  subst hs4
  have hrun : runFrom dEx 4 bs = 4 := by
    induction bs with
    | nil => rfl
    | cons b bs ih =>
      show runFrom dEx (dEx.next 4 b) bs = 4
      have h4 : dEx.next 4 b = 4 := by simp [dEx]
      rw [h4]
      exact ih
  unfold acceptsFrom
  rw [hrun]
  rfl

set_option maxRecDepth 40000 in
/-- Witness for C1: on `dEx × dEx` the BFS returns the one-byte witness
`"b"`, and the theorem bounds it by the longer common string `"aa"`. -/
theorem bfs_returns_shortest_witness :
    ([(98 : Fin 256)] : List (Fin 256)).length
      ≤ ([(97 : Fin 256), 97] : List (Fin 256)).length :=
  bfs_returns_shortest dEx dEx 5 [98] [97, 97] dEx_dead dEx_dead
    (by decide) (by decide) (by decide)

set_option maxRecDepth 40000 in
/-- Witness for C2: the returned witness `"b"` is accepted by both
sides. -/
theorem bfs_witness_matches_both_witness :
    accepts dEx [(98 : Fin 256)] = true ∧ accepts dEx [(98 : Fin 256)] = true :=
  bfs_witness_matches_both dEx dEx 5 [98] (by decide)

/-! ## The EBNF→BNF desugarer (`src/converter.rs`, `src/sebnf.rs`)

`sebnf::Item` nests lists of items inside constructors; to keep the
recursions structural the nesting is expressed with the mutually
inductive `SItem`/`SList`/`SAlts` (`SList` is a `Vec<Item>`, `SAlts` a
`Vec<Vec<Item>>`). -/

mutual

inductive SItem : Type where
  | NonTerminal (s : String)
  | Terminal (s : String)
  | Regex (s : String)
  | Optional (children : SList)
  | AnyAmount (children : SList)
  | Choice (alternatives : SAlts)

inductive SList : Type where
  | nil
  | cons (head : SItem) (tail : SList)

inductive SAlts : Type where
  | nil
  | cons (head : SList) (tail : SAlts)

end

/-- Decimal digit list of a natural number, most significant first,
fueled to keep the recursion structural (the fuel `n` always
suffices). -/
def natDigitsAux : Nat → Nat → List Char
  | 0, n => [Nat.digitChar (n % 10)]
  | fuel + 1, n =>
    if n < 10 then [Nat.digitChar n]
    else natDigitsAux fuel (n / 10) ++ [Nat.digitChar (n % 10)]

/-- Decimal rendering of a natural number (what `format!("{}", n)` emits
for a `usize`). -/
def natDigits (n : Nat) : List Char := natDigitsAux n n

/-- Decimal parsing, the inverse of `natDigits`. -/
def decodeDigits (l : List Char) : Nat :=
  l.foldl (fun a c => 10 * a + (c.toNat - 48)) 0

theorem digitChar_val {n : Nat} (h : n < 10) : (Nat.digitChar n).toNat - 48 = n := by
  interval_cases n <;> rfl

theorem decodeDigits_append (l : List Char) (c : Char) :
    decodeDigits (l ++ [c]) = 10 * decodeDigits l + (c.toNat - 48) := by
  simp [decodeDigits, List.foldl_append]

theorem decode_natDigitsAux : ∀ fuel n, n ≤ fuel →
    decodeDigits (natDigitsAux fuel n) = n := by
  intro fuel
  induction fuel with
  | zero =>
    intro n hn
    have : n = 0 := Nat.le_zero.mp hn
    subst this
    rfl
  | succ fuel ih =>
    intro n hn
    by_cases h : n < 10
    · simp only [natDigitsAux, if_pos h, decodeDigits, List.foldl_cons, List.foldl_nil]
      have := digitChar_val h
      omega
    · rw [natDigitsAux, if_neg h, decodeDigits_append]
      have hdiv : n / 10 ≤ fuel := by
        have hlt : n / 10 < n := Nat.div_lt_self (by omega) (by omega)
        omega
      rw [ih (n / 10) hdiv, digitChar_val (Nat.mod_lt n (by omega))]
      omega

theorem decode_natDigits (n : Nat) : decodeDigits (natDigits n) = n :=
  decode_natDigitsAux n n (le_refl n)

theorem natDigits_inj {i j : Nat} (h : natDigits i = natDigits j) : i = j := by
  have := decode_natDigits i
  rw [h, decode_natDigits j] at this
  exact this.symm

/-- `ConverterContext::next_name`: the string `___{p}_{i}`. -/
def mkName (p : String) (i : Nat) : String :=
  ⟨'_' :: '_' :: '_' :: (p.data ++ '_' :: natDigits i)⟩

theorem mkName_inj_same {p : String} {i j : Nat} (h : mkName p i = mkName p j) :
    i = j := by
  unfold mkName at h
  rw [String.ext_iff] at h
  simp only [List.cons.injEq, true_and] at h
  have := List.append_cancel_left h
  simp only [List.cons.injEq, true_and] at this
  exact natDigits_inj this

theorem mkName_cross {p q : String} {i j : Nat}
    (hp : p = "opt" ∨ p = "choice" ∨ p = "rep")
    (hq : q = "opt" ∨ q = "choice" ∨ q = "rep")
    (hpq : p ≠ q) : mkName p i ≠ mkName q j := by
  intro h
  unfold mkName at h
  rw [String.ext_iff] at h
  simp only [List.cons.injEq, true_and] at h
  rcases hp with rfl | rfl | rfl <;> rcases hq with rfl | rfl | rfl <;>
    first
      | exact hpq rfl
      | (simp only [show ("opt" : String).data = ['o', 'p', 't'] from rfl,
          show ("choice" : String).data = ['c', 'h', 'o', 'i', 'c', 'e'] from rfl,
          show ("rep" : String).data = ['r', 'e', 'p'] from rfl,
          List.cons_append, List.nil_append, List.cons.injEq] at h
         exact absurd h.1 (by decide))

/-- If two helper names with prefixes from the reserved set are equal,
they have the same prefix and the same counter. -/
theorem mkName_good_inj {p q : String} {i j : Nat}
    (hp : p = "opt" ∨ p = "choice" ∨ p = "rep")
    (hq : q = "opt" ∨ q = "choice" ∨ q = "rep")
    (h : mkName p i = mkName q j) : i = j := by
  by_cases hpq : p = q
  · subst hpq
    exact mkName_inj_same h
  · exact absurd h (mkName_cross hp hq hpq)

/-- `converter::ConverterContext`.  The two caches are keyed by the
canonical form of the rewrite body; the Rust code keys its `HashMap`s by
`format!("{:?}", body)`, which is injective on bodies, so keying by the
body itself is the same map.  `rule_cache` is shared by Optional and
Choice; `rep_cache` is keyed by a repetition body *before* the trailing
self-reference is appended. -/
structure Ctx : Type where
  bnf_rules : List (String × List (List Item))
  rule_cache : List (List (List Item) × String)
  rep_cache : List (List Item × String)
  uid_counter : Nat

/-- `ConverterContext::new`. -/
def Ctx.new : Ctx := { bnf_rules := [], rule_cache := [], rep_cache := [], uid_counter := 0 }

mutual

/-- `ConverterContext::convert_item`: plain items pass through; an
Optional becomes a helper with alternatives `{body | ε}`, a Choice a
helper with the converted alternatives, a repetition a right-recursive
helper `{body ++ [self] | ε}`; each rewrite first consults its cache and
on a miss mints `___{kind}_{uid}` and records the rule and the cache
entry. -/
def convert_item (ctx : Ctx) : SItem → Ctx × Item
  | SItem.NonTerminal s => (ctx, Item.NonTerminal s)
  | SItem.Terminal s => (ctx, Item.Terminal s)
  | SItem.Regex s => (ctx, Item.Regex s)
  | SItem.Optional children =>
    let r := convert_slist ctx children
    let body := [r.2, []]
    match mapGet r.1.rule_cache body with
    | some existing_name => (r.1, Item.NonTerminal existing_name)
    | none =>
      let new_name := mkName "opt" r.1.uid_counter
      ({ bnf_rules := r.1.bnf_rules ++ [(new_name, body)],
         rule_cache := r.1.rule_cache ++ [(body, new_name)],
         rep_cache := r.1.rep_cache,
         uid_counter := r.1.uid_counter + 1 }, Item.NonTerminal new_name)
  | SItem.Choice alternatives =>
    let r := convert_salts ctx alternatives
    match mapGet r.1.rule_cache r.2 with
    | some existing_name => (r.1, Item.NonTerminal existing_name)
    | none =>
      let new_name := mkName "choice" r.1.uid_counter
      ({ bnf_rules := r.1.bnf_rules ++ [(new_name, r.2)],
         rule_cache := r.1.rule_cache ++ [(r.2, new_name)],
         rep_cache := r.1.rep_cache,
         uid_counter := r.1.uid_counter + 1 }, Item.NonTerminal new_name)
  | SItem.AnyAmount children =>
    let r := convert_slist ctx children
    match mapGet r.1.rep_cache r.2 with
    | some existing_name => (r.1, Item.NonTerminal existing_name)
    | none =>
      let new_name := mkName "rep" r.1.uid_counter
      ({ bnf_rules := r.1.bnf_rules ++ [(new_name, [r.2 ++ [Item.NonTerminal new_name], []])],
         rule_cache := r.1.rule_cache,
         rep_cache := r.1.rep_cache ++ [(r.2, new_name)],
         uid_counter := r.1.uid_counter + 1 }, Item.NonTerminal new_name)

/-- `ConverterContext::convert_sequence`, threading the context left to
right. -/
def convert_slist (ctx : Ctx) : SList → Ctx × List Item
  | SList.nil => (ctx, [])
  | SList.cons h t =>
    let r1 := convert_item ctx h
    let r2 := convert_slist r1.1 t
    (r2.1, r1.2 :: r2.2)

/-- Conversion of the alternatives of a Choice, in order. -/
def convert_salts (ctx : Ctx) : SAlts → Ctx × List (List Item)
  | SAlts.nil => (ctx, [])
  | SAlts.cons h t =>
    let r1 := convert_slist ctx h
    let r2 := convert_salts r1.1 t
    (r2.1, r1.2 :: r2.2)

end

/-! ### Cache growth and stability of the desugarer -/

theorem mapGet_append_of_some {α β : Type} [DecidableEq α] {m : List (α × β)}
    (l : List (α × β)) {k : α} {v : β} (h : mapGet m k = some v) :
    mapGet (m ++ l) k = some v := by
  induction m with
  | nil => rw [mapGet_nil] at h; exact absurd h (by simp)
  | cons e m ih =>
    rw [mapGet_cons] at h
    rw [List.cons_append, mapGet_cons]
    by_cases he : e.1 = k
    · rwa [if_pos he] at h ⊢
    · rw [if_neg he] at h ⊢
      exact ih h

theorem mapGet_append_none_left {α β : Type} [DecidableEq α] {m : List (α × β)}
    (l : List (α × β)) {k : α} (h : mapGet m k = none) :
    mapGet (m ++ l) k = mapGet l k := by
  induction m with
  | nil => rfl
  | cons e m ih =>
    rw [mapGet_cons] at h
    rw [List.cons_append, mapGet_cons]
    by_cases he : e.1 = k
    · rw [if_pos he] at h; exact absurd h (by simp)
    · rw [if_neg he] at h ⊢
      exact ih h

/-- One cache extends another: every binding is preserved.  A Rust
`HashMap` only grows here and existing keys are never overwritten
(inserts are guarded by a lookup), which on the association list is an
append at the tail. -/
def cacheLE {κ : Type} [DecidableEq κ] (c1 c2 : List (κ × String)) : Prop :=
  ∀ k v, mapGet c1 k = some v → mapGet c2 k = some v

/-- Both desugaring caches of `c1` are contained in those of `c2`. -/
def CtxLE (c1 c2 : Ctx) : Prop :=
  cacheLE c1.rule_cache c2.rule_cache ∧ cacheLE c1.rep_cache c2.rep_cache

theorem ctxLE_refl (c : Ctx) : CtxLE c c :=
  ⟨fun _ _ h => h, fun _ _ h => h⟩

theorem ctxLE_trans {a b c : Ctx} (h1 : CtxLE a b) (h2 : CtxLE b c) : CtxLE a c :=
  ⟨fun k v h => h2.1 k v (h1.1 k v h), fun k v h => h2.2 k v (h1.2 k v h)⟩

mutual

theorem convert_item_le (ctx : Ctx) (it : SItem) :
    CtxLE ctx (convert_item ctx it).1 := by
  cases it with
  | NonTerminal s => exact ctxLE_refl ctx
  | Terminal s => exact ctxLE_refl ctx
  | Regex s => exact ctxLE_refl ctx
  | Optional children =>
    have h1 := convert_slist_le ctx children
    simp only [convert_item]
    rcases hc : mapGet (convert_slist ctx children).1.rule_cache
        [(convert_slist ctx children).2, []] with _ | name
    · simp only [hc]
      exact ctxLE_trans h1 ⟨fun k v h => mapGet_append_of_some _ h, fun k v h => h⟩
    · simp only [hc]
      exact h1
  | Choice alternatives =>
    have h1 := convert_salts_le ctx alternatives
    simp only [convert_item]
    rcases hc : mapGet (convert_salts ctx alternatives).1.rule_cache
        (convert_salts ctx alternatives).2 with _ | name
    · simp only [hc]
      exact ctxLE_trans h1 ⟨fun k v h => mapGet_append_of_some _ h, fun k v h => h⟩
    · simp only [hc]
      exact h1
  | AnyAmount children =>
    have h1 := convert_slist_le ctx children
    simp only [convert_item]
    rcases hc : mapGet (convert_slist ctx children).1.rep_cache
        (convert_slist ctx children).2 with _ | name
    · simp only [hc]
      exact ctxLE_trans h1 ⟨fun k v h => h, fun k v h => mapGet_append_of_some _ h⟩
    · simp only [hc]
      exact h1

theorem convert_slist_le (ctx : Ctx) (l : SList) :
    CtxLE ctx (convert_slist ctx l).1 := by
  cases l with
  | nil => exact ctxLE_refl ctx
  | cons h t =>
    simp only [convert_slist]
    exact ctxLE_trans (convert_item_le ctx h)
      (convert_slist_le (convert_item ctx h).1 t)

theorem convert_salts_le (ctx : Ctx) (a : SAlts) :
    CtxLE ctx (convert_salts ctx a).1 := by
  cases a with
  | nil => exact ctxLE_refl ctx
  | cons h t =>
    simp only [convert_salts]
    exact ctxLE_trans (convert_slist_le ctx h)
      (convert_salts_le (convert_slist ctx h).1 t)

end

theorem mapGet_singleton {α β : Type} [DecidableEq α] (k : α) (v : β) :
    mapGet [(k, v)] k = some v := by
  rw [mapGet_cons]
  simp

mutual

theorem convert_item_stable (ctx ctx' : Ctx) (it : SItem)
    (h : CtxLE (convert_item ctx it).1 ctx') :
    convert_item ctx' it = (ctx', (convert_item ctx it).2) := by
  cases it with
  | NonTerminal s => rfl
  | Terminal s => rfl
  | Regex s => rfl
  | Optional children =>
    have hle : CtxLE (convert_slist ctx children).1 (convert_item ctx (SItem.Optional children)).1 := by
      simp only [convert_item]
      rcases hc : mapGet (convert_slist ctx children).1.rule_cache
          [(convert_slist ctx children).2, []] with _ | name
      · simp only [hc]
        exact ⟨fun k v h => mapGet_append_of_some _ h, fun k v h => h⟩
      · simp only [hc]
        exact ctxLE_refl _
    have hs := convert_slist_stable ctx ctx' children (ctxLE_trans hle h)
    rcases hc : mapGet (convert_slist ctx children).1.rule_cache
        [(convert_slist ctx children).2, []] with _ | name
    · -- cache miss in the first conversion: the binding was inserted
      have hget : mapGet (convert_item ctx (SItem.Optional children)).1.rule_cache
          [(convert_slist ctx children).2, []]
          = some (mkName "opt" (convert_slist ctx children).1.uid_counter) := by
        simp only [convert_item, hc]
        rw [mapGet_append_none_left _ hc, mapGet_singleton]
      have hget' := h.1 _ _ hget
      simp only [convert_item, hs, hget']
      simp only [convert_item, hc]
    · have hget : mapGet (convert_item ctx (SItem.Optional children)).1.rule_cache
          [(convert_slist ctx children).2, []] = some name := by
        simp only [convert_item, hc]
      have hget' := h.1 _ _ hget
      simp only [convert_item, hs, hget']
      simp only [convert_item, hc]
  | Choice alternatives =>
    have hle : CtxLE (convert_salts ctx alternatives).1 (convert_item ctx (SItem.Choice alternatives)).1 := by
      simp only [convert_item]
      rcases hc : mapGet (convert_salts ctx alternatives).1.rule_cache
          (convert_salts ctx alternatives).2 with _ | name
      · simp only [hc]
        exact ⟨fun k v h => mapGet_append_of_some _ h, fun k v h => h⟩
      · simp only [hc]
        exact ctxLE_refl _
    have hs := convert_salts_stable ctx ctx' alternatives (ctxLE_trans hle h)
    rcases hc : mapGet (convert_salts ctx alternatives).1.rule_cache
        (convert_salts ctx alternatives).2 with _ | name
    · have hget : mapGet (convert_item ctx (SItem.Choice alternatives)).1.rule_cache
          (convert_salts ctx alternatives).2
          = some (mkName "choice" (convert_salts ctx alternatives).1.uid_counter) := by
        simp only [convert_item, hc]
        rw [mapGet_append_none_left _ hc, mapGet_singleton]
      have hget' := h.1 _ _ hget
      simp only [convert_item, hs, hget']
      simp only [convert_item, hc]
    · have hget : mapGet (convert_item ctx (SItem.Choice alternatives)).1.rule_cache
          (convert_salts ctx alternatives).2 = some name := by
        simp only [convert_item, hc]
      have hget' := h.1 _ _ hget
      simp only [convert_item, hs, hget']
      simp only [convert_item, hc]
  | AnyAmount children =>
    have hle : CtxLE (convert_slist ctx children).1 (convert_item ctx (SItem.AnyAmount children)).1 := by
      simp only [convert_item]
      rcases hc : mapGet (convert_slist ctx children).1.rep_cache
          (convert_slist ctx children).2 with _ | name
      · simp only [hc]
        exact ⟨fun k v h => h, fun k v h => mapGet_append_of_some _ h⟩
      · simp only [hc]
        exact ctxLE_refl _
    have hs := convert_slist_stable ctx ctx' children (ctxLE_trans hle h)
    rcases hc : mapGet (convert_slist ctx children).1.rep_cache
        (convert_slist ctx children).2 with _ | name
    · have hget : mapGet (convert_item ctx (SItem.AnyAmount children)).1.rep_cache
          (convert_slist ctx children).2
          = some (mkName "rep" (convert_slist ctx children).1.uid_counter) := by
        simp only [convert_item, hc]
        rw [mapGet_append_none_left _ hc, mapGet_singleton]
      have hget' := h.2 _ _ hget
      simp only [convert_item, hs, hget']
      simp only [convert_item, hc]
    · have hget : mapGet (convert_item ctx (SItem.AnyAmount children)).1.rep_cache
          (convert_slist ctx children).2 = some name := by
        simp only [convert_item, hc]
      have hget' := h.2 _ _ hget
      simp only [convert_item, hs, hget']
      simp only [convert_item, hc]

theorem convert_slist_stable (ctx ctx' : Ctx) (l : SList)
    (h : CtxLE (convert_slist ctx l).1 ctx') :
    convert_slist ctx' l = (ctx', (convert_slist ctx l).2) := by
  cases l with
  | nil => rfl
  | cons hd t =>
    have hle : CtxLE (convert_item ctx hd).1 (convert_slist ctx (SList.cons hd t)).1 := by
      simp only [convert_slist]
      exact convert_slist_le (convert_item ctx hd).1 t
    have hi := convert_item_stable ctx ctx' hd (ctxLE_trans hle h)
    have ht := convert_slist_stable (convert_item ctx hd).1 ctx' t
      (by simpa only [convert_slist] using h)
    simp only [convert_slist, hi, ht]

theorem convert_salts_stable (ctx ctx' : Ctx) (a : SAlts)
    (h : CtxLE (convert_salts ctx a).1 ctx') :
    convert_salts ctx' a = (ctx', (convert_salts ctx a).2) := by
  cases a with
  | nil => rfl
  | cons hd t =>
    have hle : CtxLE (convert_slist ctx hd).1 (convert_salts ctx (SAlts.cons hd t)).1 := by
      simp only [convert_salts]
      exact convert_salts_le (convert_slist ctx hd).1 t
    have hi := convert_slist_stable ctx ctx' hd (ctxLE_trans hle h)
    have ht := convert_salts_stable (convert_slist ctx hd).1 ctx' t
      (by simpa only [convert_salts] using h)
    simp only [convert_salts, hi, ht]

end

/-- Claim C6: structural deduplication of the desugarer.  Conversion
only grows the caches; once an item has been converted, converting a
structurally identical copy in any later context returns the same
helper item and leaves the context unchanged, so no second helper is
minted.  A repetition hit is keyed on the converted body *before* the
trailing self-reference (`rep_cache`), while Optional and Choice hits
go through the one shared `rule_cache`, keyed on the converted body. -/
theorem convert_item_dedup :
    (∀ (ctx : Ctx) (it : SItem), CtxLE ctx (convert_item ctx it).1)
    ∧ (∀ (ctx ctx' : Ctx) (it : SItem), CtxLE (convert_item ctx it).1 ctx' →
        convert_item ctx' it = (ctx', (convert_item ctx it).2))
    ∧ (∀ (ctx : Ctx) (children : SList) (n : String),
        mapGet (convert_slist ctx children).1.rep_cache (convert_slist ctx children).2
          = some n →
        convert_item ctx (SItem.AnyAmount children)
          = ((convert_slist ctx children).1, Item.NonTerminal n))
    ∧ (∀ (ctx : Ctx) (children : SList) (n : String),
        mapGet (convert_slist ctx children).1.rule_cache
            [(convert_slist ctx children).2, []] = some n →
        convert_item ctx (SItem.Optional children)
          = ((convert_slist ctx children).1, Item.NonTerminal n))
    ∧ (∀ (ctx : Ctx) (alternatives : SAlts) (n : String),
        mapGet (convert_salts ctx alternatives).1.rule_cache
            (convert_salts ctx alternatives).2 = some n →
        convert_item ctx (SItem.Choice alternatives)
          = ((convert_salts ctx alternatives).1, Item.NonTerminal n)) := by
  refine ⟨convert_item_le, convert_item_stable, ?_, ?_, ?_⟩ <;>
    (intro ctx x n hc; simp only [convert_item, hc])

/-- The item `[ "x" ]` used by the C6 witness. -/
def sOptX : SItem := SItem.Optional (SList.cons (SItem.Terminal "\"x\"") SList.nil)

/-- Witness for C6: converting `[ "x" ]` twice from the empty context
mints `___opt_0` once and the second conversion returns the same helper
without touching the context. -/
theorem convert_item_dedup_witness :
    convert_item (convert_item Ctx.new sOptX).1 sOptX
      = ((convert_item Ctx.new sOptX).1, (convert_item Ctx.new sOptX).2)
    ∧ (convert_item Ctx.new sOptX).2 = Item.NonTerminal "___opt_0" :=
  ⟨convert_item_dedup.2.1 Ctx.new (convert_item Ctx.new sOptX).1 sOptX (ctxLE_refl _),
   by decide⟩

/-! ### Helper-name freshness and the output ordering (`sebnf_to_bnf`) -/

/-- A key minted by the desugarer before the counter reached `n`. -/
def goodKey (n : Nat) (k : String) : Prop :=
  ∃ p i, (p = "opt" ∨ p = "choice" ∨ p = "rep") ∧ i < n ∧ k = mkName p i

/-- Well-formedness of a converter context: helper rules have distinct
names, all minted with counters below the current one. -/
def CtxWF (c : Ctx) : Prop :=
  (mapKeys c.bnf_rules).Nodup ∧ ∀ k ∈ mapKeys c.bnf_rules, goodKey c.uid_counter k

theorem ctxWF_new : CtxWF Ctx.new :=
  ⟨List.nodup_nil, fun k hk => absurd hk (List.not_mem_nil k)⟩

theorem ctxWF_insert {c : Ctx} (h : CtxWF c) {p : String}
    (hp : p = "opt" ∨ p = "choice" ∨ p = "rep") (body : List (List Item)) :
    (mapKeys (c.bnf_rules ++ [(mkName p c.uid_counter, body)])).Nodup
    ∧ ∀ k ∈ mapKeys (c.bnf_rules ++ [(mkName p c.uid_counter, body)]),
        goodKey (c.uid_counter + 1) k := by
  have hfresh : mkName p c.uid_counter ∉ mapKeys c.bnf_rules := by
    intro hmem
    obtain ⟨q, i, hq, hi, hk⟩ := h.2 _ hmem
    have := mkName_good_inj hq hp hk.symm
    omega
  constructor
  · rw [mapKeys_append, List.nodup_append]
    refine ⟨h.1, List.nodup_singleton _, ?_⟩
    intro k hk hk2
    have : k = mkName p c.uid_counter := by simpa [mapKeys] using hk2
    subst this
    exact hfresh hk
  · intro k hk
    rw [mapKeys_append] at hk
    rcases List.mem_append.mp hk with hk | hk
    · obtain ⟨q, i, hq, hi, hkk⟩ := h.2 _ hk
      exact ⟨q, i, hq, by omega, hkk⟩
    · have : k = mkName p c.uid_counter := by simpa [mapKeys] using hk
      exact ⟨p, c.uid_counter, hp, by omega, this⟩

mutual

theorem convert_item_wf (ctx : Ctx) (it : SItem) (h : CtxWF ctx) :
    CtxWF (convert_item ctx it).1 := by
  cases it with
  | NonTerminal s => exact h
  | Terminal s => exact h
  | Regex s => exact h
  | Optional children =>
    have h1 := convert_slist_wf ctx children h
    simp only [convert_item]
    rcases hc : mapGet (convert_slist ctx children).1.rule_cache
        [(convert_slist ctx children).2, []] with _ | name
    · simp only [hc]
      exact ctxWF_insert h1 (Or.inl rfl) _
    · simp only [hc]
      exact h1
  | Choice alternatives =>
    have h1 := convert_salts_wf ctx alternatives h
    simp only [convert_item]
    rcases hc : mapGet (convert_salts ctx alternatives).1.rule_cache
        (convert_salts ctx alternatives).2 with _ | name
    · simp only [hc]
      exact ctxWF_insert h1 (Or.inr (Or.inl rfl)) _
    · simp only [hc]
      exact h1
  | AnyAmount children =>
    have h1 := convert_slist_wf ctx children h
    simp only [convert_item]
    rcases hc : mapGet (convert_slist ctx children).1.rep_cache
        (convert_slist ctx children).2 with _ | name
    · simp only [hc]
      exact ctxWF_insert h1 (Or.inr (Or.inr rfl)) _
    · simp only [hc]
      exact h1

theorem convert_slist_wf (ctx : Ctx) (l : SList) (h : CtxWF ctx) :
    CtxWF (convert_slist ctx l).1 := by
  cases l with
  | nil => exact h
  | cons hd t =>
    simp only [convert_slist]
    exact convert_slist_wf (convert_item ctx hd).1 t (convert_item_wf ctx hd h)

theorem convert_salts_wf (ctx : Ctx) (a : SAlts) (h : CtxWF ctx) :
    CtxWF (convert_salts ctx a).1 := by
  cases a with
  | nil => exact h
  | cons hd t =>
    simp only [convert_salts]
    exact convert_salts_wf (convert_slist ctx hd).1 t (convert_slist_wf ctx hd h)

end

/-- `sebnf::Sebnf`: the parsed EBNF grammar, an insertion-ordered map
from rule name to alternatives. -/
structure Sebnf : Type where
  rules : List (String × List SList)

/-- Conversion of the alternatives of one rule, threading the context
(`for alt in alternatives { push(convert_sequence(alt)) }`). -/
def convert_alts (ctx : Ctx) : List SList → Ctx × List (List Item)
  | [] => (ctx, [])
  | alt :: rest =>
    let r1 := convert_slist ctx alt
    let r2 := convert_alts r1.1 rest
    (r2.1, r1.2 :: r2.2)

/-- The first loop of `converter::sebnf_to_bnf`: convert every rule in
input order, collecting `original_rules` and the final context. -/
def convert_rules (ctx : Ctx) :
    List (String × List SList) → List (String × List (List Item)) × Ctx
  | [] => ([], ctx)
  | r :: rest =>
    let a := convert_alts ctx r.2
    let rec2 := convert_rules a.1 rest
    ((r.1, a.2) :: rec2.1, rec2.2)

/-- `IndexMap::insert`: replace in place when the key exists, append
otherwise. -/
def imInsert (m : List (String × List (List Item)))
    (e : String × List (List Item)) : List (String × List (List Item)) :=
  if e.1 ∈ mapKeys m then
    m.map (fun f => if f.1 = e.1 then (f.1, e.2) else f)
  else
    m ++ [e]

/-- `converter::sebnf_to_bnf`: convert all rules, then build the final
map by inserting the converted original rules in input order followed by
the helper rules the context accumulated, in creation order. -/
def sebnf_to_bnf (g : Sebnf) : Bnf :=
  let r := convert_rules Ctx.new g.rules
  { rules := r.2.bnf_rules.foldl imInsert (r.1.foldl imInsert []) }

theorem convert_alts_wf (altsList : List SList) :
    ∀ ctx : Ctx, CtxWF ctx → CtxWF (convert_alts ctx altsList).1 := by
  induction altsList with
  | nil => intro ctx h; exact h
  | cons alt rest ih =>
    intro ctx h
    simp only [convert_alts]
    exact ih _ (convert_slist_wf ctx alt h)

theorem convert_rules_wf (rules : List (String × List SList)) :
    ∀ ctx : Ctx, CtxWF ctx → CtxWF (convert_rules ctx rules).2 := by
  induction rules with
  | nil => intro ctx h; exact h
  | cons r rest ih =>
    intro ctx h
    simp only [convert_rules]
    exact ih _ (convert_alts_wf r.2 ctx h)

theorem convert_rules_keys (rules : List (String × List SList)) :
    ∀ ctx : Ctx, mapKeys (convert_rules ctx rules).1 = rules.map (fun r => r.1) := by
  induction rules with
  | nil => intro ctx; rfl
  | cons r rest ih =>
    intro ctx
    simp only [convert_rules, mapKeys_cons, List.map_cons]
    rw [ih]

theorem foldl_imInsert_append (l : List (String × List (List Item))) :
    ∀ m : List (String × List (List Item)),
      (∀ k ∈ mapKeys l, k ∉ mapKeys m) → (mapKeys l).Nodup →
      l.foldl imInsert m = m ++ l := by
  induction l with
  | nil => intro m _ _; exact (List.append_nil m).symm
  | cons e rest ih =>
    intro m hdisj hnodup
    show rest.foldl imInsert (imInsert m e) = _
    have he : e.1 ∉ mapKeys m := hdisj e.1 (by simp [mapKeys])
    have h1 : imInsert m e = m ++ [e] := by
      unfold imInsert
      rw [if_neg he]
    rw [h1, ih (m ++ [e]) ?_ ?_]
    · simp
    · intro k hk
      rw [mapKeys_append]
      intro hmem
      rcases List.mem_append.mp hmem with hm | hs
      · exact hdisj k (by rw [mapKeys_cons]; exact List.mem_cons_of_mem _ hk) hm
      · have hke : k = e.1 := by simpa [mapKeys] using hs
        subst hke
        rw [mapKeys_cons] at hnodup
        exact (List.nodup_cons.mp hnodup).1 hk
    · rw [mapKeys_cons] at hnodup
      exact (List.nodup_cons.mp hnodup).2

theorem head?_map_key {α β : Type} (l : List (α × β)) :
    l.head?.map (fun r => r.1) = (mapKeys l).head? := by
  cases l <;> rfl

/-- Claim C7: the desugared grammar lists the converted original rules
in input order followed by every helper rule in creation order, so the
first key of the output equals the first key of the input (the start
symbol is preserved).  The hypotheses are the data-model invariants of
the input: rule names are distinct (they come from an `IndexMap`) and
never use the reserved `___` namespace. -/
theorem sebnf_to_bnf_order (g : Sebnf)
    (hnodup : (g.rules.map (fun r => r.1)).Nodup)
    (hns : ∀ k ∈ g.rules.map (fun r => r.1), k.data.take 3 ≠ ['_', '_', '_']) :
    (sebnf_to_bnf g).rules
      = (convert_rules Ctx.new g.rules).1
        ++ (convert_rules Ctx.new g.rules).2.bnf_rules
    ∧ mapKeys (convert_rules Ctx.new g.rules).1 = g.rules.map (fun r => r.1)
    ∧ (sebnf_to_bnf g).rules.head?.map (fun r => r.1)
        = g.rules.head?.map (fun r => r.1) := by
  have hkeys := convert_rules_keys g.rules Ctx.new
  have hwf := convert_rules_wf g.rules Ctx.new ctxWF_new
  have hdisj : ∀ k ∈ mapKeys (convert_rules Ctx.new g.rules).2.bnf_rules,
      k ∉ mapKeys (convert_rules Ctx.new g.rules).1 := by
    intro k hk hmem
    obtain ⟨p, i, hp, _, hkk⟩ := hwf.2 k hk
    have hdata : k.data.take 3 = ['_', '_', '_'] := by
      rw [hkk]
      rfl
    rw [hkeys] at hmem
    exact hns k hmem hdata
  have hfirst : (convert_rules Ctx.new g.rules).1.foldl imInsert []
      = (convert_rules Ctx.new g.rules).1 := by
    have := foldl_imInsert_append (convert_rules Ctx.new g.rules).1 []
      (fun k _ hk => List.not_mem_nil k hk) (by rw [hkeys]; exact hnodup)
    simpa using this
  have hsecond : (convert_rules Ctx.new g.rules).2.bnf_rules.foldl imInsert
        (convert_rules Ctx.new g.rules).1
      = (convert_rules Ctx.new g.rules).1
        ++ (convert_rules Ctx.new g.rules).2.bnf_rules :=
    foldl_imInsert_append _ _ hdisj hwf.1
  have hrules : (sebnf_to_bnf g).rules
      = (convert_rules Ctx.new g.rules).1
        ++ (convert_rules Ctx.new g.rules).2.bnf_rules := by
    show (convert_rules Ctx.new g.rules).2.bnf_rules.foldl imInsert
        ((convert_rules Ctx.new g.rules).1.foldl imInsert []) = _
    rw [hfirst, hsecond]
  refine ⟨hrules, hkeys, ?_⟩
  rw [hrules, head?_map_key, head?_map_key, mapKeys_append]
  rcases g with ⟨grules⟩
  cases grules with
  | nil => rfl
  | cons r rest =>
    simp only [convert_rules, mapKeys_cons, List.map_cons, List.cons_append]
    rfl

/-- The grammar `List := "(" { Item } ")". Item := "x".` for the C7
witness. -/
def gEx7 : Sebnf :=
  { rules :=
      [("List",
        [SList.cons (SItem.Terminal "\"(\"")
          (SList.cons (SItem.AnyAmount (SList.cons (SItem.NonTerminal "Item") SList.nil))
            (SList.cons (SItem.Terminal "\")\"") SList.nil))]),
       ("Item", [SList.cons (SItem.Terminal "\"x\"") SList.nil])] }

/-- Witness for C7: the original names survive in order and the first
output key is the input start symbol, with both hypotheses discharged by
evaluation. -/
theorem sebnf_to_bnf_order_witness :
    mapKeys (convert_rules Ctx.new gEx7.rules).1 = gEx7.rules.map (fun r => r.1)
    ∧ (sebnf_to_bnf gEx7).rules.head?.map (fun r => r.1)
        = gEx7.rules.head?.map (fun r => r.1) :=
  ⟨(sebnf_to_bnf_order gEx7 (by decide) (by decide)).2.1,
   (sebnf_to_bnf_order gEx7 (by decide) (by decide)).2.2⟩

end SEBNF
